import Mathlib

set_option maxHeartbeats 1000000
set_option maxRecDepth 4000

/-!
Verification of the Golemio stop-count pipeline (src/app/downloader.py).

Python dicts with string keys are modelled as association lists
(`List (String × β)`): the list order is the dict's insertion order,
`aset` is the assignment `d[k] = v` (overwrite in place when the key is
present, append otherwise), and `alookup` is `d.get(k)` / `d[k]`.
Code that can raise (`KeyError`) is modelled with `Option`: `none` is an
uncaught exception that aborts the surrounding loop.
-/

/-- Lookup `d[x]` in an insertion-ordered dict modelled as an association
list; `none` means the key is absent. -/
def alookup {β : Type} : List (String × β) → String → Option β
  | [], _ => none
  | e :: t, x => if x = e.1 then some e.2 else alookup t x

/-- Assignment `d[k] = v` on an insertion-ordered dict: overwrite in place
when the key is present, append at the end otherwise. -/
def aset {β : Type} : List (String × β) → String → β → List (String × β)
  | [], k, v => [(k, v)]
  | e :: t, k, v => if e.1 = k then (k, v) :: t else e :: aset t k v

/-- Keys of a dict, in insertion order. -/
def keysOf {β : Type} (d : List (String × β)) : List String := d.map Prod.fst

/-- Python `d.get(x, 0)` for an integer-valued dict. -/
def getD0 (d : List (String × Nat)) (x : String) : Nat := (alookup d x).getD 0

@[simp] theorem keysOf_nil {β : Type} : keysOf ([] : List (String × β)) = [] := rfl

@[simp] theorem keysOf_cons {β : Type} (e : String × β) (t : List (String × β)) :
    keysOf (e :: t) = e.1 :: keysOf t := rfl

theorem alookup_aset {β : Type} (d : List (String × β)) (k : String) (v : β)
    (x : String) :
    alookup (aset d k v) x = if x = k then some v else alookup d x := by
  induction d with
  | nil => simp [aset, alookup]
  | cons e t ih =>
      by_cases h : e.1 = k
      · simp only [aset, if_pos h, alookup]
        by_cases hx : x = k
        · simp [hx]
        · have hx2 : ¬ x = e.1 := by rw [h]; exact hx
          simp [hx, hx2]
      · simp only [aset, if_neg h, alookup]
        by_cases hx : x = e.1
        · have hxk : ¬ x = k := by rw [hx]; exact fun hh => h hh
          simp [hx, hxk, h]
        · simp [hx, ih]

theorem mem_keysOf_iff {β : Type} (d : List (String × β)) (x : String) :
    x ∈ keysOf d ↔ ∃ v, (x, v) ∈ d := by
  constructor
  · intro h
    simp only [keysOf, List.mem_map] at h
    obtain ⟨⟨a, b⟩, he, hx⟩ := h
    refine ⟨b, ?_⟩
    rw [← hx]
    exact he
  · rintro ⟨v, hv⟩
    simp only [keysOf, List.mem_map]
    exact ⟨(x, v), hv, rfl⟩

theorem alookup_eq_none_iff {β : Type} (d : List (String × β)) (x : String) :
    alookup d x = none ↔ x ∉ keysOf d := by
  induction d with
  | nil => simp [alookup, keysOf]
  | cons e t ih =>
      by_cases hx : x = e.1
      · simp [alookup, hx]
      · simp only [alookup, if_neg hx, keysOf_cons, List.mem_cons]
        rw [ih]
        constructor
        · intro h hc
          rcases hc with hc | hc
          · exact hx hc
          · exact h hc
        · intro h hc
          exact h (Or.inr hc)

theorem alookup_isSome_iff {β : Type} (d : List (String × β)) (x : String) :
    (alookup d x).isSome = true ↔ x ∈ keysOf d := by
  rcases h : alookup d x with _ | v
  · simp [(alookup_eq_none_iff d x).mp h]
  · simp only [Option.isSome_some, true_iff]
    by_contra hm
    rw [← alookup_eq_none_iff] at hm
    rw [h] at hm
    exact Option.noConfusion hm

theorem keysOf_aset {β : Type} (d : List (String × β)) (k : String) (v : β) :
    keysOf (aset d k v) = if k ∈ keysOf d then keysOf d else keysOf d ++ [k] := by
  induction d with
  | nil => simp [aset, keysOf]
  | cons e t ih =>
      by_cases h : e.1 = k
      · simp only [aset, if_pos h, keysOf_cons]
        rw [if_pos (by rw [← h]; exact List.mem_cons_self _ _)]
        rw [h]
      · simp only [aset, if_neg h, keysOf_cons]
        by_cases hm : k ∈ keysOf t
        · rw [ih, if_pos hm, if_pos (List.mem_cons_of_mem _ hm)]
        · have hne : ¬ k ∈ e.1 :: keysOf t := by
            intro hc
            rcases List.mem_cons.mp hc with hc | hc
            · exact h hc.symm
            · exact hm hc
          rw [ih, if_neg hm, if_neg hne, List.cons_append]

theorem mem_keysOf_aset {β : Type} (d : List (String × β)) (k : String) (v : β)
    (x : String) :
    x ∈ keysOf (aset d k v) ↔ x ∈ keysOf d ∨ x = k := by
  rw [keysOf_aset]
  by_cases h : k ∈ keysOf d
  · rw [if_pos h]
    constructor
    · exact Or.inl
    · rintro (hx | hx)
      · exact hx
      · rw [hx]; exact h
  · rw [if_neg h]
    simp

theorem nodup_keysOf_aset {β : Type} (d : List (String × β)) (k : String) (v : β)
    (h : (keysOf d).Nodup) : (keysOf (aset d k v)).Nodup := by
  rw [keysOf_aset]
  by_cases hm : k ∈ keysOf d
  · simpa [hm] using h
  · rw [if_neg hm]
    simp only [List.nodup_append, List.nodup_cons, List.nodup_nil]
    refine ⟨h, by simp, ?_⟩
    intro a ha hb
    rw [List.mem_singleton] at hb
    exact hm (hb ▸ ha)

theorem alookup_of_mem_nodup {β : Type} (d : List (String × β)) (k : String)
    (v : β) (hnd : (keysOf d).Nodup) (hm : (k, v) ∈ d) :
    alookup d k = some v := by
  induction d with
  | nil => simp at hm
  | cons e t ih =>
      rw [keysOf_cons, List.nodup_cons] at hnd
      rcases List.mem_cons.mp hm with hm | hm
      · rw [← hm]; simp [alookup]
      · have hk : ¬ k = e.1 := by
          intro hk
          exact hnd.1 (hk ▸ (mem_keysOf_iff t k).mpr ⟨v, hm⟩)
        simp only [alookup, if_neg hk]
        exact ih hnd.2 hm

theorem mem_of_alookup {β : Type} (d : List (String × β)) (k : String) (v : β)
    (h : alookup d k = some v) : (k, v) ∈ d := by
  induction d with
  | nil => simp [alookup] at h
  | cons e t ih =>
      by_cases hk : k = e.1
      · simp only [alookup, if_pos hk, Option.some.injEq] at h
        cases e with
        | mk a b =>
            simp only at hk
            rw [hk, ← h]
            exact List.mem_cons_self _ _
      · simp only [alookup, if_neg hk] at h
        exact List.mem_cons_of_mem _ (ih h)

/-! ### The wavefront counter (src/app/downloader.py, lines 224-257)

An item of a page response is modelled by its owning `stop_id` string;
a page is the list of its items.  A work record appended to
`self.__remaining_async` stores the stop id wrapped in a one-element
list, exactly as line 236 of the source does. -/

/-- A record of `self.__remaining_async`: note that the source stores the
stop id as a one-element Python list (line 236 of src/app/downloader.py),
not as a bare string. -/
structure WorkItem where
  stop_id : List String
  offset : Nat
deriving DecidableEq, Repr

/-- The mutable state shared by the response callbacks of one wave:
`self.__counted_stops` (modelled as a total function, absent keys mapping
to 0 — the source only ever stores strictly positive counts, so Python's
truthiness test `self.__counted_stops.get(id)` is exactly `counted id ≠ 0`)
and `self.__remaining_async`. -/
structure WaveState where
  counted : String → Nat
  remaining : List WorkItem

/-- The response callback `__callback` (src/app/downloader.py lines 224-248):
`responses` is the decoded page, `n` its length; a non-empty page is
correlated to its entity by the first item's `stop_id`. -/
def callback (st : WaveState) (responses : List String) : WaveState :=
  let n := responses.length
  match responses with
  | [] => st
  | first :: _ =>
      if st.counted first ≠ 0 then
        { counted := fun x => if x = first then st.counted x + n else st.counted x,
          remaining := st.remaining ++ [{ stop_id := [first], offset := n + st.counted first }] }
      else
        { counted := fun x => if x = first then n else st.counted x,
          remaining := st.remaining ++ [{ stop_id := [first], offset := n }] }

theorem callback_nil (st : WaveState) : callback st [] = st := rfl

/-- Both branches of `__callback` have the same effect: bump the first
item's entity by the page length and append one continuation record whose
offset is the new accumulated count. -/
theorem callback_cons (st : WaveState) (first : String) (rest : List String) :
    callback st (first :: rest) =
      { counted := fun x => if x = first then st.counted first + (first :: rest).length
                            else st.counted x,
        remaining := st.remaining ++
          [{ stop_id := [first], offset := st.counted first + (first :: rest).length }] } := by
  by_cases h : st.counted first = 0
  · simp [callback, h, Nat.add_comm]
  · simp [callback, h, Nat.add_comm]
    funext x
    by_cases hx : x = first <;> simp [hx]

/-- One wave of `__async_requests`: fire the callback once per work element,
in work-list order (responses of one wave commute here because each entity
occurs at most once per wave).  `self.__remaining_async = []` at line 255
is the fresh `remaining` of the start state. -/
def foldCallbacks {α : Type} (resp : α → List String) (st : WaveState) (ws : List α) : WaveState :=
  ws.foldl (fun s a => callback s (resp a)) st

theorem foldCallbacks_nil {α : Type} (resp : α → List String) (st : WaveState) :
    foldCallbacks resp st [] = st := rfl

theorem foldCallbacks_cons {α : Type} (resp : α → List String) (st : WaveState)
    (a : α) (t : List α) :
    foldCallbacks resp st (a :: t) = foldCallbacks resp (callback st (resp a)) t := rfl

theorem callback_replicate (st : WaveState) (e : String) (n : Nat) :
    callback st (List.replicate n e) =
      if n = 0 then st else
        { counted := fun x => if x = e then st.counted e + n else st.counted x,
          remaining := st.remaining ++ [⟨[e], st.counted e + n⟩] } := by
  cases n with
  | zero => simp [List.replicate, callback]
  | succ m =>
      rw [List.replicate_succ, callback_cons]
      simp

theorem filterMap_congr2 {α β : Type} (f g : α → Option β) :
    ∀ (l : List α), (∀ a ∈ l, f a = g a) → l.filterMap f = l.filterMap g := by
  intro l
  induction l with
  | nil => intro _; rfl
  | cons a t ih =>
      intro h
      simp only [List.filterMap_cons]
      rw [h a (List.mem_cons_self _ _), ih (fun b hb => h b (List.mem_cons_of_mem _ hb))]

theorem counted_foldCallbacks_of_not_mem {α : Type} (resp : α → List String)
    (ent : α → String) (len : α → Nat) :
    ∀ (ws : List α) (st : WaveState) (x : String),
      (∀ a ∈ ws, resp a = List.replicate (len a) (ent a)) →
      x ∉ ws.map ent →
      (foldCallbacks resp st ws).counted x = st.counted x := by
  intro ws
  induction ws with
  | nil => intro st x _ _; rfl
  | cons a t ih =>
      intro st x hresp hx
      simp only [List.map_cons, List.mem_cons, not_or] at hx
      rw [foldCallbacks_cons,
        ih _ x (fun b hb => hresp b (List.mem_cons_of_mem _ hb)) hx.2,
        hresp a (List.mem_cons_self _ _), callback_replicate]
      by_cases hn : len a = 0
      · simp [hn]
      · simp only [if_neg hn]
        simp [hx.1]

theorem counted_foldCallbacks_of_mem {α : Type} (resp : α → List String)
    (ent : α → String) (len : α → Nat) :
    ∀ (ws : List α) (st : WaveState) (a : α),
      (∀ b ∈ ws, resp b = List.replicate (len b) (ent b)) →
      (ws.map ent).Nodup → a ∈ ws →
      (foldCallbacks resp st ws).counted (ent a) = st.counted (ent a) + len a := by
  intro ws
  induction ws with
  | nil => intro st a _ _ h; simp at h
  | cons b t ih =>
      intro st a hresp hnd hmem
      rw [List.map_cons, List.nodup_cons] at hnd
      rw [foldCallbacks_cons]
      rcases List.mem_cons.mp hmem with hab | hat
      · have hb : ent a ∉ t.map ent := by rw [hab]; exact hnd.1
        rw [counted_foldCallbacks_of_not_mem resp ent len t _ _
            (fun c hc => hresp c (List.mem_cons_of_mem _ hc)) hb]
        rw [hab, hresp b (List.mem_cons_self _ _), callback_replicate]
        by_cases hn : len b = 0
        · simp [hn]
        · simp [if_neg hn]
      · have hne : ent a ≠ ent b := by
          intro hc
          exact hnd.1 (hc ▸ List.mem_map_of_mem ent hat)
        have hstep : (callback st (resp b)).counted (ent a) = st.counted (ent a) := by
          rw [hresp b (List.mem_cons_self _ _), callback_replicate]
          by_cases hn : len b = 0
          · simp [hn]
          · simp [if_neg hn, hne]
        rw [ih _ a (fun c hc => hresp c (List.mem_cons_of_mem _ hc)) hnd.2 hat, hstep]

theorem remaining_foldCallbacks {α : Type} (resp : α → List String)
    (ent : α → String) (len : α → Nat) :
    ∀ (ws : List α) (st : WaveState),
      (∀ b ∈ ws, resp b = List.replicate (len b) (ent b)) →
      (ws.map ent).Nodup →
      (foldCallbacks resp st ws).remaining =
        st.remaining ++ ws.filterMap (fun a =>
          if len a = 0 then none
          else some ⟨[ent a], st.counted (ent a) + len a⟩) := by
  intro ws
  induction ws with
  | nil => intro st _ _; simp [foldCallbacks_nil]
  | cons b t ih =>
      intro st hresp hnd
      rw [List.map_cons, List.nodup_cons] at hnd
      have hb := hresp b (List.mem_cons_self _ _)
      by_cases hn : len b = 0
      · have hcb : callback st (resp b) = st := by
          rw [hb, callback_replicate, if_pos hn]
        rw [foldCallbacks_cons, hcb,
          ih st (fun c hc => hresp c (List.mem_cons_of_mem _ hc)) hnd.2,
          List.filterMap_cons]
        simp [hn]
      · set st2 : WaveState :=
          { counted := fun x => if x = ent b then st.counted (ent b) + len b else st.counted x,
            remaining := st.remaining ++ [⟨[ent b], st.counted (ent b) + len b⟩] } with hst2
        have hcb : callback st (resp b) = st2 := by
          rw [hb, callback_replicate, if_neg hn]
        have hcong :
            List.filterMap (fun a =>
              if len a = 0 then none
              else some (WorkItem.mk [ent a] (st2.counted (ent a) + len a))) t =
            List.filterMap (fun a =>
              if len a = 0 then none
              else some (WorkItem.mk [ent a] (st.counted (ent a) + len a))) t := by
          apply filterMap_congr2
          intro c hc
          have hne : ent c = ent b → False :=
            fun hce => hnd.1 (hce ▸ List.mem_map_of_mem ent hc)
          simp only [hst2]
          rw [if_neg hne]
        rw [foldCallbacks_cons, hcb,
          ih st2 (fun c hc => hresp c (List.mem_cons_of_mem _ hc)) hnd.2,
          hcong, List.filterMap_cons]
        simp only [hst2, if_neg hn]
        rw [List.append_assoc]
        rfl

/-! ### Python string rendering

`str()` of a Python list of strings, as an f-string interpolates it:
line 236 stores the stop id as a one-element list, and the continuation
URLs of lines 208-211 embed that list's `str` form. -/

/-- Python single-quote character, as used by `repr` of a string. -/
def pySingleQuote : String := (Char.ofNat 39).toString

/-- Python `repr` of a plain identifier string (no escaping arises). -/
def pyReprStr (s : String) : String := pySingleQuote ++ s ++ pySingleQuote

/-- Python `", ".join`. -/
def commaJoin : List String → String
  | [] => ""
  | [x] => x
  | x :: y :: t => x ++ ", " ++ commaJoin (y :: t)

/-- What a Python f-string interpolates for a list of strings. -/
def pyStrOfList (xs : List String) : String :=
  "[" ++ commaJoin (xs.map pyReprStr) ++ "]"

/-! ### Fixed page sequences for a batch

The claims about the counting loop assume every identifier's page
sequence is known in advance: `pages id` is the list of page lengths the
endpoint serves, back to back from offset 0, for the identifier `id`
named in the request URL; an identifier unknown to the endpoint has no
pages.  The HTTP transport itself is out of scope (spec section 1): a
request is answered with the page of the identifier its URL names at the
offset its URL names — the endpoint contract of spec section 6. -/

/-- Length of the page served at a given offset when the non-empty pages
have the lengths `ps` and start back to back at offset 0; offsets past the
end of the data yield the empty page. -/
def pageLenAt : List Nat → Nat → Nat
  | [], _ => 0
  | l :: ls, o => if o = 0 then l else if l ≤ o then pageLenAt ls (o - l) else 0

/-- The page served for identifier `e` at offset `o`: a homogeneous list
of items all carrying the id `e`. -/
def pageFor (pages : String → List Nat) (e : String) (o : Nat) : List String :=
  List.replicate (pageLenAt (pages e) o) e

/-- The response to one continuation request: the URL built by
`_build_list_of_urls_for_count_stop_cont` (line 211) interpolates
`station['stop_id']`, which `__callback` (line 236) stored as a
one-element Python list, so the request names the identifier
`str(['<id>'])` and is served that string identifier's page at the
stored offset — not the entity's own next page. -/
def contResponse (pages : String → List Nat) (w : WorkItem) : List String :=
  pageFor pages (pyStrOfList w.stop_id) w.offset

/-- One wave of `__async_requests` started from the counted map `counted`
(the `self.__remaining_async = []` reset of line 255 gives the empty
remaining list of the start state). -/
def runWave {α : Type} (resp : α → List String) (counted : String → Nat)
    (work : List α) : WaveState :=
  foldCallbacks resp { counted := counted, remaining := [] } work

/-- The `while self.__remaining_async:` loop of `count_stop_times_per_day`
(src/app/downloader.py lines 277-279), with explicit fuel; the second
component counts how many continuation waves ran. -/
def runContWaves (pages : String → List Nat) : Nat → WaveState → WaveState × Nat
  | 0, st => (st, 0)
  | fuel + 1, st =>
      if st.remaining = [] then (st, 0)
      else
        let st2 := runWave (contResponse pages) st.counted st.remaining
        let r := runContWaves pages fuel st2
        (r.1, r.2 + 1)

/-- One chunk of `count_stop_times_per_day` (lines 274-280): the initial
round of requests at offset 0 for every id of the batch, then continuation
waves over the remaining-work list until it is empty.  `__counted_stops`
starts empty for each chunk (line 283 resets it). -/
def count_stop_times_chunk (pages : String → List Nat) (ids : List String)
    (fuel : Nat) : WaveState × Nat :=
  runContWaves pages fuel
    (runWave (fun e => pageFor pages e 0) (fun _ => 0) ids)

/-- Total pages an entity would have to fetch before the wavefront drops
it: its non-empty pages plus the final empty page signalling exhaustion. -/
def pagesNeeded (pages : String → List Nat) (e : String) : Nat :=
  (pages e).length + 1

/-- Maximum number of pages needed over the entities of a batch. -/
def maxPagesNeeded (pages : String → List Nat) (ids : List String) : Nat :=
  (ids.map (pagesNeeded pages)).foldr max 0

theorem runWave_def {α : Type} (resp : α → List String) (c : String → Nat)
    (ws : List α) :
    runWave resp c ws = foldCallbacks resp { counted := c, remaining := [] } ws := rfl

theorem waveState_eq (s : WaveState) (c : String → Nat) (r : List WorkItem)
    (h1 : s.counted = c) (h2 : s.remaining = r) : s = ⟨c, r⟩ := by
  cases s
  cases h1
  cases h2
  rfl

theorem runContWaves_succ (pages : String → List Nat) (fuel : Nat)
    (st : WaveState) :
    runContWaves pages (fuel + 1) st =
      if st.remaining = [] then (st, 0)
      else
        ((runContWaves pages fuel
            (runWave (contResponse pages) st.counted st.remaining)).1,
         (runContWaves pages fuel
            (runWave (contResponse pages) st.counted st.remaining)).2 + 1) := rfl

theorem runContWaves_of_nil (pages : String → List Nat) (f : Nat)
    (st : WaveState) (h : st.remaining = []) :
    runContWaves pages f st = (st, 0) := by
  cases f with
  | zero => rfl
  | succ g => rw [runContWaves_succ, if_pos h]

theorem count_stop_times_chunk_def (pages : String → List Nat)
    (ids : List String) (fuel : Nat) :
    count_stop_times_chunk pages ids fuel =
      runContWaves pages fuel
        (runWave (fun e => pageFor pages e 0) (fun _ => 0) ids) := rfl

theorem foldCallbacks_all_nil {α : Type} (resp : α → List String) :
    ∀ (ws : List α) (st : WaveState), (∀ a ∈ ws, resp a = []) →
      foldCallbacks resp st ws = st := by
  intro ws
  induction ws with
  | nil => intro st _; rfl
  | cons a t ih =>
      intro st h
      rw [foldCallbacks_cons, h a (List.mem_cons_self _ _), callback_nil]
      exact ih st (fun b hb => h b (List.mem_cons_of_mem _ hb))

theorem init_wave_counted (pages : String → List Nat) (ids : List String)
    (hnd : ids.Nodup) :
    ∀ x ∈ ids, (runWave (fun e => pageFor pages e 0) (fun _ => 0) ids).counted x
      = (pages x).headD 0 := by
  intro x hx
  have h2 := counted_foldCallbacks_of_mem (fun e => pageFor pages e 0)
    (fun e : String => e) (fun e => pageLenAt (pages e) 0) ids
    ⟨fun _ => 0, []⟩ x (fun _ _ => rfl) (by simpa using hnd) hx
  rw [runWave_def]
  refine Eq.trans h2 ?_
  show (0 : Nat) + pageLenAt (pages x) 0 = (pages x).headD 0
  rw [Nat.zero_add]
  cases hp : pages x <;> rfl

theorem init_wave_remaining (pages : String → List Nat) (ids : List String)
    (hnd : ids.Nodup) :
    (runWave (fun e => pageFor pages e 0) (fun _ => 0) ids).remaining
      = ids.filterMap (fun e =>
          if pageLenAt (pages e) 0 = 0 then none
          else some ⟨[e], pageLenAt (pages e) 0⟩) := by
  rw [runWave_def, remaining_foldCallbacks (fun e => pageFor pages e 0)
    (fun e : String => e) (fun e => pageLenAt (pages e) 0) ids
    ⟨fun _ => 0, []⟩ (fun _ _ => rfl) (by simpa using hnd)]
  show ([] : List WorkItem) ++ ids.filterMap (fun a =>
      if pageLenAt (pages a) 0 = 0 then none
      else some ⟨[a], (0 : Nat) + pageLenAt (pages a) 0⟩) = _
  rw [List.nil_append]
  apply filterMap_congr2
  intro e he
  rw [Nat.zero_add]

/-- C1: the claimed behavior fails in the code.  `__callback` (line 236)
stores the stop id wrapped in a one-element list and
`_build_list_of_urls_for_count_stop_cont` (line 211) interpolates that
list into the endpoint path, so every continuation request names the
malformed identifier `['<id>']`; the endpoint, serving pages per the
identifier a URL names, has no pages for it.  Hence for every batch with
pages fixed in advance the loop runs at most one continuation wave, each
entity's recorded count is only its first page's length, any entity with
further non-empty pages ends short of the claimed sum of all its page
lengths, and the claimed wave count (`max` pages-needed) is missed
whenever some entity needs more than two pages. -/
theorem c1_wavefront_stalls_after_first_page
    (pages : String → List Nat) (ids : List String) (fuel : Nat)
    (hnd : ids.Nodup)
    (hmal : ∀ e ∈ ids, pages (pyStrOfList [e]) = [])
    (hfuel : 1 ≤ fuel) :
    (count_stop_times_chunk pages ids fuel).1.remaining = [] ∧
    (count_stop_times_chunk pages ids fuel).2 ≤ 1 ∧
    (∀ e ∈ ids, (count_stop_times_chunk pages ids fuel).1.counted e
      = (pages e).headD 0) ∧
    (∀ e ∈ ids, 0 < (pages e).tail.sum →
      (count_stop_times_chunk pages ids fuel).1.counted e ≠ (pages e).sum) ∧
    (2 < maxPagesNeeded pages ids →
      (count_stop_times_chunk pages ids fuel).2 + 1 ≠ maxPagesNeeded pages ids) := by
  have hc := init_wave_counted pages ids hnd
  have hr := init_wave_remaining pages ids hnd
  have hnil : ∀ w ∈ (runWave (fun e => pageFor pages e 0) (fun _ => 0) ids).remaining,
      contResponse pages w = [] := by
    intro w hw
    rw [hr, List.mem_filterMap] at hw
    obtain ⟨e, he, hfe⟩ := hw
    by_cases hz : pageLenAt (pages e) 0 = 0
    · rw [if_pos hz] at hfe
      exact Option.noConfusion hfe
    · rw [if_neg hz] at hfe
      injection hfe with hfe2
      rw [← hfe2]
      simp only [contResponse, pageFor, hmal e he, pageLenAt, List.replicate_zero]
  have hst2 : runWave (contResponse pages)
      (runWave (fun e => pageFor pages e 0) (fun _ => 0) ids).counted
      (runWave (fun e => pageFor pages e 0) (fun _ => 0) ids).remaining
      = ⟨(runWave (fun e => pageFor pages e 0) (fun _ => 0) ids).counted, []⟩ := by
    rw [runWave_def]
    exact foldCallbacks_all_nil (contResponse pages) _ _ hnil
  obtain ⟨f, rfl⟩ : ∃ f, fuel = f + 1 := ⟨fuel - 1, by omega⟩
  by_cases hrem : (runWave (fun e => pageFor pages e 0) (fun _ => 0) ids).remaining = []
  · have hchunk : count_stop_times_chunk pages ids (f + 1)
        = (runWave (fun e => pageFor pages e 0) (fun _ => 0) ids, 0) := by
      rw [count_stop_times_chunk_def, runContWaves_succ, if_pos hrem]
    refine ⟨?_, ?_, ?_, ?_, ?_⟩
    · rw [hchunk]
      exact hrem
    · rw [hchunk]
      exact Nat.zero_le 1
    · intro e he
      rw [hchunk]
      exact hc e he
    · intro e he hpos2
      rw [hchunk]
      intro hcontra
      have hcontra2 : (runWave (fun e => pageFor pages e 0) (fun _ => 0) ids).counted e
          = (pages e).sum := hcontra
      rw [hc e he] at hcontra2
      cases hp : pages e with
      | nil =>
          rw [hp] at hpos2
          simp at hpos2
      | cons a t =>
          rw [hp] at hcontra2 hpos2
          simp only [List.headD_cons, List.sum_cons, List.tail_cons] at hcontra2 hpos2
          omega
    · intro hmax
      rw [hchunk]
      show 0 + 1 ≠ maxPagesNeeded pages ids
      omega
  · have hchunk : count_stop_times_chunk pages ids (f + 1)
        = (⟨(runWave (fun e => pageFor pages e 0) (fun _ => 0) ids).counted, []⟩, 1) := by
      rw [count_stop_times_chunk_def, runContWaves_succ, if_neg hrem, hst2,
        runContWaves_of_nil pages f _ rfl]
    refine ⟨?_, ?_, ?_, ?_, ?_⟩
    · rw [hchunk]
    · rw [hchunk]
    · intro e he
      rw [hchunk]
      exact hc e he
    · intro e he hpos2
      rw [hchunk]
      intro hcontra
      have hcontra2 : (runWave (fun e => pageFor pages e 0) (fun _ => 0) ids).counted e
          = (pages e).sum := hcontra
      rw [hc e he] at hcontra2
      cases hp : pages e with
      | nil =>
          rw [hp] at hpos2
          simp at hpos2
      | cons a t =>
          rw [hp] at hcontra2 hpos2
          simp only [List.headD_cons, List.sum_cons, List.tail_cons] at hcontra2 hpos2
          omega
    · intro hmax
      rw [hchunk]
      show 1 + 1 ≠ maxPagesNeeded pages ids
      omega

/-- Concrete page assignment for the C1 record: entity `a` has pages of
lengths 2 and 1 (so needs three fetches by the claimed schedule), entity
`b` one page of length 3; no identifier of the form `['...']` has any. -/
def c1pages : String → List Nat :=
  fun e => if e = "a" then [2, 1] else if e = "b" then [3] else []

theorem c1_wavefront_stalls_witness :
    (count_stop_times_chunk c1pages ["a", "b"] 2).1.remaining = [] ∧
    (count_stop_times_chunk c1pages ["a", "b"] 2).1.counted "a" = 2 ∧
    (count_stop_times_chunk c1pages ["a", "b"] 2).1.counted "a" ≠ (c1pages "a").sum := by
  obtain ⟨h1, h2, h3, h4, h5⟩ := c1_wavefront_stalls_after_first_page
    c1pages ["a", "b"] 2 (by decide) (by decide) (by decide)
  exact ⟨h1, (h3 "a" (by decide)).trans (by decide), h4 "a" (by decide) (by decide)⟩

/-- C2: for every page response processed by `__callback`: a non-empty page
increases the accumulated count of the entity named by the first item by
the page length and re-enqueues that entity with offset equal to the new
accumulated count, leaving every other entity's count unchanged; an empty
page changes nothing and enqueues nothing, so the entity silently leaves
the active set. -/
theorem c2_callback_transition (st : WaveState) (responses : List String) :
    (responses = [] → callback st responses = st) ∧
    (∀ first rest, responses = first :: rest →
      (callback st responses).counted first
          = st.counted first + responses.length ∧
      (∀ x, x ≠ first → (callback st responses).counted x = st.counted x) ∧
      (callback st responses).remaining
          = st.remaining ++ [⟨[first], st.counted first + responses.length⟩]) := by
  constructor
  · intro h
    rw [h]
    rfl
  · intro first rest h
    rw [h, callback_cons]
    refine ⟨by simp, ?_, rfl⟩
    intro x hx
    simp [hx]

theorem c2_callback_witness :
    callback ⟨fun _ => 0, []⟩ [] = ⟨fun _ => 0, []⟩ ∧
    (callback ⟨fun _ => 0, []⟩ ["s", "s"]).counted "s"
        = (⟨fun _ => 0, []⟩ : WaveState).counted "s" + (["s", "s"] : List String).length :=
  ⟨(c2_callback_transition ⟨fun _ => 0, []⟩ []).1 rfl,
   ((c2_callback_transition ⟨fun _ => 0, []⟩ ["s", "s"]).2 "s" ["s"] rfl).1⟩

/-! ### URL building (src/app/downloader.py, lines 161-213) -/

/-- Attribute `self.base_uri`. -/
def base_uri : String := "https://api.golemio.cz/v1/"

/-- Attribute `self.limit_per_page`. -/
def limit_per_page : Nat := 1000

/-- The uri f-string shared by `_build_list_of_urls_for_count_stop`
(line 182) and `_build_list_of_urls_for_count_stop_cont` (line 211), with
`parameters` already expanded to `date={date}&`; `sid` is whatever string
the f-string interpolates for `station_id`. -/
def stopTimesUri (sid : String) (date : String) (offset : Nat) : String :=
  base_uri ++ ("gtfs/stoptimes/" ++ sid) ++ "?" ++ ("date=" ++ date ++ "&")
    ++ "limit=" ++ toString limit_per_page ++ "&offset=" ++ toString offset

/-- `_build_list_of_urls_for_count_stop_cont` (lines 191-213): one uri per
record of `self.__remaining_async`; `station_id = station['stop_id']` is
the stored stop-id list, so the f-string embeds the list's string form. -/
def _build_list_of_urls_for_count_stop_cont (remaining : List WorkItem)
    (date : String) : List String :=
  remaining.map (fun w => stopTimesUri (pyStrOfList w.stop_id) date w.offset)

/-- C10: the work record appended by `__callback` stores the entity id
wrapped in a one-element list, the follow-up url for such a record embeds
the list's string form (`gtfs/stoptimes/['<id>']`), and consequently no
continuation url equals the url shape a first page request for the bare id
would use at the updated offset. -/
theorem c10_cont_urls_embed_list_form (st : WaveState) (first : String)
    (rest : List String) (date : String) (o : Nat) :
    (callback st (first :: rest)).remaining
        = st.remaining ++ [⟨[first], st.counted first + (first :: rest).length⟩] ∧
    _build_list_of_urls_for_count_stop_cont
        [⟨[first], st.counted first + (first :: rest).length⟩] date
      = [stopTimesUri (pyStrOfList [first]) date
          (st.counted first + (first :: rest).length)] ∧
    stopTimesUri (pyStrOfList [first]) date o ≠ stopTimesUri first date o := by
  refine ⟨(callback_cons st first rest).symm ▸ rfl, rfl, ?_⟩
  intro heq
  have hlen := congrArg String.length heq
  simp only [stopTimesUri, pyStrOfList, List.map_cons, List.map_nil, commaJoin,
    pyReprStr, String.length_append] at hlen
  have h1 : ("[" : String).length = 1 := rfl
  have h2 : ("]" : String).length = 1 := rfl
  have h3 : pySingleQuote.length = 1 := rfl
  omega

/-! ### Batch chunking (src/app/downloader.py, lines 259-263)

`_split_dict_into_n_sized_chunks` iterates the dict's keys once with
`islice`, yielding one sub-dict per `range(0, len(d), n)` step; on the
entry list this is the block of `n` entries starting at `i * n` for
`i < ceil(len / n)`.  Python raises `ValueError` for `n = 0` (`range` step
zero), so the model is only meaningful for `n > 0`. -/

def _split_dict_into_n_sized_chunks {α : Type} (d : List α) (n : Nat) :
    List (List α) :=
  (List.range ((d.length + n - 1) / n)).map (fun i => (d.drop (i * n)).take n)

theorem splitChunks_nil {α : Type} (n : Nat) :
    _split_dict_into_n_sized_chunks ([] : List α) n = [] := by
  cases n with
  | zero =>
      rw [_split_dict_into_n_sized_chunks]
      rw [show (([] : List α).length + 0 - 1) / 0 = 0 from by simp]
      rfl
  | succ m =>
      rw [_split_dict_into_n_sized_chunks]
      rw [show (([] : List α).length + (m + 1) - 1) / (m + 1) = 0 from by
        simp [Nat.div_eq_of_lt]]
      rfl

theorem splitChunks_cons {α : Type} (n : Nat) (hn : 0 < n) (d : List α)
    (hd : d ≠ []) :
    _split_dict_into_n_sized_chunks d n
      = d.take n :: _split_dict_into_n_sized_chunks (d.drop n) n := by
  have hL : 0 < d.length := List.length_pos.mpr hd
  have hcount : (d.length + n - 1) / n = ((d.drop n).length + n - 1) / n + 1 := by
    rw [List.length_drop]
    by_cases hle : d.length ≤ n
    · have h1 : (d.length + n - 1) / n = 1 := by
        apply Nat.div_eq_of_lt_le
        · omega
        · omega
      have h2 : (d.length - n + n - 1) / n = 0 := Nat.div_eq_of_lt (by omega)
      omega
    · have hfull : d.length + n - 1 = (d.length - 1 - n) + n + n := by omega
      have hdrop : d.length - n + n - 1 = (d.length - 1 - n) + n := by omega
      rw [hfull, hdrop, Nat.add_div_right _ hn, Nat.add_div_right _ hn]
  rw [_split_dict_into_n_sized_chunks, hcount, List.range_succ_eq_map,
    List.map_cons, List.map_map]
  rw [show (0 : Nat) * n = 0 from by ring, List.drop_zero]
  congr 1
  rw [_split_dict_into_n_sized_chunks]
  apply List.map_congr_left
  intro i _
  show ((d.drop (i.succ * n)).take n) = (((d.drop n).drop (i * n)).take n)
  rw [List.drop_drop]
  congr 2
  rw [Nat.succ_mul]
  exact Nat.add_comm _ _

theorem splitChunks_length {α : Type} (d : List α) (n : Nat) :
    (_split_dict_into_n_sized_chunks d n).length = (d.length + n - 1) / n := by
  rw [_split_dict_into_n_sized_chunks, List.length_map, List.length_range]

theorem splitChunks_flatten {α : Type} (n : Nat) (hn : 0 < n) :
    ∀ (k : Nat) (d : List α), d.length ≤ k →
      (_split_dict_into_n_sized_chunks d n).flatten = d := by
  intro k
  induction k with
  | zero =>
      intro d hd
      have hdn : d = [] := List.eq_nil_of_length_eq_zero (by omega)
      rw [hdn, splitChunks_nil]
      rfl
  | succ m ih =>
      intro d hd
      by_cases hdn : d = []
      · rw [hdn, splitChunks_nil]
        rfl
      · rw [splitChunks_cons n hn d hdn, List.flatten_cons,
          ih (d.drop n) (by
            rw [List.length_drop]
            have := List.length_pos.mpr hdn
            omega)]
        exact List.take_append_drop n d

theorem splitChunks_map_length {α : Type} (d : List α) (n : Nat) :
    (_split_dict_into_n_sized_chunks d n).map List.length
      = (List.range ((d.length + n - 1) / n)).map
          (fun i => min n (d.length - i * n)) := by
  rw [_split_dict_into_n_sized_chunks, List.map_map]
  apply List.map_congr_left
  intro i _
  show ((d.drop (i * n)).take n).length = _
  rw [List.length_take, List.length_drop]

theorem ceil_mul_bounds (L n : Nat) (hn : 0 < n) :
    L ≤ ((L + n - 1) / n) * n ∧ ((L + n - 1) / n) * n ≤ L + n - 1 := by
  have hq := Nat.div_add_mod (L + n - 1) n
  have hr : (L + n - 1) % n < n := Nat.mod_lt _ hn
  have hc : ((L + n - 1) / n) * n = n * ((L + n - 1) / n) := Nat.mul_comm _ _
  constructor
  · omega
  · exact Nat.div_mul_le_self _ _

theorem chunk_size_full (L n i : Nat) (hn : 0 < n)
    (hi : i + 1 < (L + n - 1) / n) : min n (L - i * n) = n := by
  have hb1 := (ceil_mul_bounds L n hn).1
  have hb2 := (ceil_mul_bounds L n hn).2
  have h1 : (i + 2) * n ≤ ((L + n - 1) / n) * n :=
    Nat.mul_le_mul_right n (by omega)
  have h2 : (i + 2) * n = i * n + 2 * n := by ring
  omega

theorem chunk_size_last (L n : Nat) (hn : 0 < n) (hL : 0 < L) :
    L - ((L + n - 1) / n - 1) * n = if L % n = 0 then n else L % n := by
  have hq := Nat.div_add_mod L n
  have hr : L % n < n := Nat.mod_lt _ hn
  by_cases hz : L % n = 0
  · rw [if_pos hz]
    have hnL : n ≤ L := by
      by_contra hc
      have : L % n = L := Nat.mod_eq_of_lt (by omega)
      omega
    have hcount : (L + n - 1) / n = L / n := by
      have h1 : L + n - 1 = n * (L / n) + (n - 1) := by omega
      have h2 : (n - 1) / n = 0 := Nat.div_eq_of_lt (by omega)
      rw [h1, Nat.mul_add_div hn, h2]
      omega
    rw [hcount]
    have hq1 : 1 ≤ L / n := (Nat.one_le_div_iff hn).mpr hnL
    have h2 : (L / n - 1) * n = (L / n) * n - 1 * n := by
      rw [Nat.sub_mul]
    have h3 : (L / n) * n = n * (L / n) := Nat.mul_comm _ _
    have h4 : (1 : Nat) * n = n := Nat.one_mul n
    omega
  · rw [if_neg hz]
    have hcount : (L + n - 1) / n = L / n + 1 := by
      have h1 : L + n - 1 = n * (L / n) + (L % n + n - 1) := by omega
      rw [h1, Nat.mul_add_div hn]
      have h4 : (L % n + n - 1) / n = 1 := by
        apply Nat.div_eq_of_lt_le
        · omega
        · omega
      omega
    rw [hcount, Nat.add_sub_cancel]
    have h3 : (L / n) * n = n * (L / n) := Nat.mul_comm _ _
    omega

theorem splitChunks_pairwise_disjoint {β : Type} (d : List (String × β))
    (n : Nat) (hn : 0 < n) (hnd : (keysOf d).Nodup) :
    List.Pairwise (fun c1 c2 => ∀ x, x ∈ keysOf c1 → x ∉ keysOf c2)
      (_split_dict_into_n_sized_chunks d n) := by
  have hflat : (_split_dict_into_n_sized_chunks d n).flatten = d :=
    splitChunks_flatten n hn d.length d le_rfl
  have hmf : ((_split_dict_into_n_sized_chunks d n).map keysOf).flatten
      = keysOf ((_split_dict_into_n_sized_chunks d n).flatten) := by
    rw [show keysOf ((_split_dict_into_n_sized_chunks d n).flatten)
        = ((_split_dict_into_n_sized_chunks d n).flatten).map Prod.fst from rfl,
      List.map_flatten]
    rfl
  have hnd2 : (((_split_dict_into_n_sized_chunks d n).map keysOf).flatten).Nodup := by
    rw [hmf, hflat]
    exact hnd
  have hpw := (List.nodup_flatten.mp hnd2).2
  rw [List.pairwise_map] at hpw
  exact hpw.imp (fun h x hx1 hx2 => h hx1 hx2)

/-- C9: for every dict and chunk size n > 0, `_split_dict_into_n_sized_chunks`
yields `ceil(len / n)` (written `(len + n - 1) / n`) sub-dicts, in the
original key order with union the whole dict (their concatenation is the
dict itself), pairwise disjoint when the keys are distinct; every chunk
except the last has size n, and the last has size `len % n` when that is
nonzero (size n when `n` divides `len`).  `count_stop_times_per_day`
(lines 274-286) then processes these chunks strictly in list order. -/
theorem c9_split_dict_chunks {β : Type} (d : List (String × β)) (n : Nat)
    (hn : 0 < n) :
    (_split_dict_into_n_sized_chunks d n).length = (d.length + n - 1) / n ∧
    (_split_dict_into_n_sized_chunks d n).flatten = d ∧
    ((keysOf d).Nodup →
      List.Pairwise (fun c1 c2 => ∀ x, x ∈ keysOf c1 → x ∉ keysOf c2)
        (_split_dict_into_n_sized_chunks d n)) ∧
    (_split_dict_into_n_sized_chunks d n).map List.length
      = (List.range ((d.length + n - 1) / n)).map
          (fun i => min n (d.length - i * n)) ∧
    (∀ i, i + 1 < (d.length + n - 1) / n → min n (d.length - i * n) = n) ∧
    (0 < d.length →
      min n (d.length - ((d.length + n - 1) / n - 1) * n)
        = if d.length % n = 0 then n else d.length % n) := by
  refine ⟨splitChunks_length d n, splitChunks_flatten n hn d.length d le_rfl,
    fun hnd => splitChunks_pairwise_disjoint d n hn hnd,
    splitChunks_map_length d n,
    fun i hi => chunk_size_full d.length n i hn hi, fun hL => ?_⟩
  rw [chunk_size_last d.length n hn hL]
  by_cases hz : d.length % n = 0
  · rw [if_pos hz]
    exact Nat.min_self n
  · rw [if_neg hz]
    exact Nat.min_eq_right (by
      have : d.length % n < n := Nat.mod_lt _ hn
      omega)

/-- Concrete 9000-entry dict for the C9 witness. -/
def c9dict : List (String × Nat) := (List.range 9000).map (fun i => (toString i, i))

theorem c9_split_dict_witness :
    (_split_dict_into_n_sized_chunks c9dict 4000).map List.length
      = [4000, 4000, 1000] := by
  have h := (c9_split_dict_chunks c9dict 4000 (by decide)).2.2.2.1
  have hlen : c9dict.length = 9000 := by simp [c9dict]
  rw [h, hlen]
  decide

/-! ### Hierarchy construction (src/app/downloader.py, lines 86-159)

A raw entity record carries the fields `filter_station_ids_enriched` reads
from each station's `properties`; coordinates are opaque payload here.
The builder makes two passes: `_save_parents_into_ids_dict` folded over the
records, then the reconciliation pass `_save_children_into_ids_dict`, whose
`child_parent[...]` lookup can raise `KeyError` (modelled as `none`). -/

structure RawStation where
  parent_station : Option String
  stop_id : String
  stop_lat : String
  stop_lon : String
  stop_name : String
deriving DecidableEq, Repr

/-- Python truthiness of the `parent_station` value: `None` and the empty
string are falsy. -/
def pyTruthy : Option String → Bool
  | none => false
  | some s => if s = "" then false else true

/-- The parent id named by a truthy `parent_station`. -/
def parentId (o : Option String) : String := o.getD ""

/-- One value of the `all_stations_ids` dict: the station's name, its
location payload, and the list of child stop ids. -/
structure StationInfo where
  name : String
  location : String × String
  children : List String
deriving DecidableEq, Repr

/-- `_save_parents_into_ids_dict` (lines 86-113): children-dict values are
modelled as the bare child list (the source wraps them as
one-key dicts). -/
def _save_parents_into_ids_dict (all_ids : List (String × StationInfo))
    (children : List (String × List String)) (parent_station_id : Option String)
    (station_id : String) (station_location : String × String)
    (station_name : String) :
    List (String × StationInfo) × List (String × List String) :=
  if pyTruthy parent_station_id then
    match alookup children (parentId parent_station_id) with
    | some cs =>
        if station_id ∈ cs then (all_ids, children)
        else (all_ids, aset children (parentId parent_station_id) (cs ++ [station_id]))
    | none => (all_ids, aset children (parentId parent_station_id) [station_id])
  else
    (aset all_ids station_id ⟨station_name, station_location, []⟩, children)

/-- The first pass of `filter_station_ids_enriched` (lines 146-157). -/
def pass1 (stations : List RawStation) :
    List (String × StationInfo) × List (String × List String) :=
  stations.foldl (fun acc st =>
    _save_parents_into_ids_dict acc.1 acc.2 st.parent_station st.stop_id
      (st.stop_lat, st.stop_lon) st.stop_name) ([], [])

/-- The first loop of `_save_children_into_ids_dict` (lines 123-131): state
is `(all_ids, children_of_children, child_parent)`. -/
def pass2FirstLoop (all_ids : List (String × StationInfo))
    (children : List (String × List String)) :
    List (String × StationInfo) × List (String × List String)
      × List (String × String) :=
  children.foldl (fun acc e =>
    match alookup acc.1 e.1 with
    | some info =>
        (aset acc.1 e.1 ⟨info.name, info.location, e.2⟩,
         acc.2.1,
         e.2.foldl (fun m c => aset m c e.1) acc.2.2)
    | none => (acc.1, aset acc.2.1 e.1 e.2, acc.2.2)) (all_ids, [], [])

/-- Keep the first occurrence of every element: the model of Python's
`set(...)` conversion in line 134 (the set's iteration order is arbitrary
in Python; the claims proved below do not depend on it). -/
def firstDedup : List String → List String
  | [] => []
  | x :: xs => x :: (firstDedup xs).filter (fun y => decide (¬ y = x))

/-- The second loop of `_save_children_into_ids_dict` (lines 132-136):
`child_parent[parent_station_id]` raises `KeyError` when the intermediate
parent is not a child of any top-level parent; the extension appends the
set difference `in_second - in_first`. -/
def pass2SecondLoop (cp : List (String × String))
    (coc : List (String × List String)) (ai : List (String × StationInfo)) :
    Option (List (String × StationInfo)) :=
  coc.foldl (fun acc e =>
    acc.bind (fun ai2 =>
      match alookup cp e.1 with
      | none => none
      | some top =>
          match alookup ai2 top with
          | none => none
          | some info =>
              some (aset ai2 top ⟨info.name, info.location,
                info.children
                  ++ (firstDedup e.2).filter
                      (fun c => decide (¬ c ∈ info.children))⟩))) (some ai)

/-- `_save_children_into_ids_dict` (lines 115-137). -/
def _save_children_into_ids_dict (all_ids : List (String × StationInfo))
    (children : List (String × List String)) :
    Option (List (String × StationInfo)) :=
  let s := pass2FirstLoop all_ids children
  pass2SecondLoop s.2.2 s.2.1 s.1

/-- `filter_station_ids_enriched` (lines 139-159) without the file I/O:
both passes composed over the decoded station records. -/
def filter_station_ids_enriched (stations : List RawStation) :
    Option (List (String × StationInfo)) :=
  let p := pass1 stations
  _save_children_into_ids_dict p.1 p.2

/-- The record list declares `c` as a child of `pid`. -/
def declaredUnder (stations : List RawStation) (c pid : String) : Prop :=
  ∃ r ∈ stations, r.stop_id = c ∧ pyTruthy r.parent_station = true ∧
    parentId r.parent_station = pid

/-- The record list declares `p` as a top-level station (no parent). -/
def isTopId (stations : List RawStation) (p : String) : Prop :=
  ∃ r ∈ stations, r.stop_id = p ∧ pyTruthy r.parent_station = false

instance declaredUnder_decidable (stations : List RawStation) (c pid : String) :
    Decidable (declaredUnder stations c pid) := by
  rw [declaredUnder]
  infer_instance

instance isTopId_decidable (stations : List RawStation) (p : String) :
    Decidable (isTopId stations p) := by
  rw [isTopId]
  infer_instance

theorem nodup_append_singleton {α : Type} (l : List α) (x : α) (hnd : l.Nodup)
    (hx : x ∉ l) : (l ++ [x]).Nodup := by
  rw [List.nodup_append]
  refine ⟨hnd, List.nodup_singleton x, ?_⟩
  intro a ha hb
  rw [List.mem_singleton] at hb
  exact hx (hb ▸ ha)

/-- Invariant characterising the two dicts built by the first pass, with
`D c pid` = "c declared as child of pid so far" and `T p` = "p declared
top-level so far". -/
def Pass1Inv (D : String → String → Prop) (T : String → Prop)
    (ai : List (String × StationInfo)) (ch : List (String × List String)) :
    Prop :=
  (∀ pid cs, alookup ch pid = some cs → cs.Nodup ∧ (∀ c, c ∈ cs ↔ D c pid)) ∧
  (∀ pid, alookup ch pid = none → ∀ c, ¬ D c pid) ∧
  (∀ p, p ∈ keysOf ai ↔ T p) ∧
  (∀ p info, alookup ai p = some info → info.children = []) ∧
  (keysOf ai).Nodup ∧ (keysOf ch).Nodup

theorem pass1Inv_congr {D D2 : String → String → Prop} {T T2 : String → Prop}
    {ai : List (String × StationInfo)} {ch : List (String × List String)}
    (h : Pass1Inv D T ai ch) (hD : ∀ c pid, D c pid ↔ D2 c pid)
    (hT : ∀ p, T p ↔ T2 p) : Pass1Inv D2 T2 ai ch := by
  obtain ⟨h1, h2, h3, h4, h5, h6⟩ := h
  refine ⟨?_, ?_, ?_, h4, h5, h6⟩
  · intro pid cs hcs
    obtain ⟨hnd, hiff⟩ := h1 pid cs hcs
    exact ⟨hnd, fun c => (hiff c).trans (hD c pid)⟩
  · intro pid hn c hc
    exact h2 pid hn c ((hD c pid).mpr hc)
  · intro p
    exact (h3 p).trans (hT p)

theorem pass1_step (D : String → String → Prop) (T : String → Prop)
    (ai : List (String × StationInfo)) (ch : List (String × List String))
    (h : Pass1Inv D T ai ch) (r : RawStation) :
    Pass1Inv
      (fun c pid => D c pid ∨
        (r.stop_id = c ∧ pyTruthy r.parent_station = true ∧
         parentId r.parent_station = pid))
      (fun p => T p ∨ (r.stop_id = p ∧ pyTruthy r.parent_station = false))
      (_save_parents_into_ids_dict ai ch r.parent_station r.stop_id
        (r.stop_lat, r.stop_lon) r.stop_name).1
      (_save_parents_into_ids_dict ai ch r.parent_station r.stop_id
        (r.stop_lat, r.stop_lon) r.stop_name).2 := by
  obtain ⟨h1, h2, h3, h4, h5, h6⟩ := h
  by_cases htr : pyTruthy r.parent_station = true
  · -- child record: all_ids untouched, children possibly extended
    have hTiff : ∀ p, T p ↔
        (T p ∨ (r.stop_id = p ∧ pyTruthy r.parent_station = false)) := by
      intro p
      constructor
      · exact Or.inl
      · rintro (hp | ⟨_, hc⟩)
        · exact hp
        · rw [htr] at hc
          exact absurd hc (by simp)
    cases hch : alookup ch (parentId r.parent_station) with
    | some cs =>
        by_cases hmem : r.stop_id ∈ cs
        · simp only [_save_parents_into_ids_dict, if_pos htr, hch, if_pos hmem]
          refine pass1Inv_congr
            ⟨?_, ?_, h3, h4, h5, h6⟩ (fun c pid => Iff.rfl) hTiff
          · intro pid cs2 hcs2
            obtain ⟨hnd, hiff⟩ := h1 pid cs2 hcs2
            refine ⟨hnd, fun c => ⟨fun hc => Or.inl ((hiff c).mp hc), ?_⟩⟩
            rintro (hc | ⟨hid, _, hpid⟩)
            · exact (hiff c).mpr hc
            · rw [← hpid] at hcs2
              rw [hch] at hcs2
              cases hcs2
              rw [← hid]
              exact hmem
          · intro pid hn c hc
            rcases hc with hc | ⟨_, _, hpid⟩
            · exact h2 pid hn c hc
            · rw [← hpid, hch] at hn
              exact Option.noConfusion hn
        · simp only [_save_parents_into_ids_dict, if_pos htr, hch, if_neg hmem]
          refine pass1Inv_congr
            ⟨?_, ?_, h3, h4, h5, nodup_keysOf_aset _ _ _ h6⟩
            (fun c pid => Iff.rfl) hTiff
          · intro pid cs2 hcs2
            rw [alookup_aset] at hcs2
            by_cases hpid : pid = parentId r.parent_station
            · rw [if_pos hpid] at hcs2
              cases hcs2
              obtain ⟨hnd, hiff⟩ := h1 _ cs hch
              refine ⟨nodup_append_singleton cs r.stop_id hnd hmem, fun c => ?_⟩
              rw [List.mem_append, List.mem_singleton]
              constructor
              · rintro (hc | hc)
                · rw [hpid]
                  exact Or.inl ((hiff c).mp hc)
                · exact Or.inr ⟨hc.symm, htr, hpid.symm⟩
              · rintro (hc | ⟨hid, _, _⟩)
                · exact Or.inl ((hiff c).mpr (by rw [hpid] at hc; exact hc))
                · exact Or.inr hid.symm
            · rw [if_neg hpid] at hcs2
              obtain ⟨hnd, hiff⟩ := h1 pid cs2 hcs2
              refine ⟨hnd, fun c => ⟨fun hc => Or.inl ((hiff c).mp hc), ?_⟩⟩
              rintro (hc | ⟨_, _, hpid2⟩)
              · exact (hiff c).mpr hc
              · exact absurd hpid2.symm hpid
          · intro pid hn c hc
            rw [alookup_aset] at hn
            by_cases hpid : pid = parentId r.parent_station
            · rw [if_pos hpid] at hn
              exact Option.noConfusion hn
            · rw [if_neg hpid] at hn
              rcases hc with hc | ⟨_, _, hpid2⟩
              · exact h2 pid hn c hc
              · exact absurd hpid2.symm hpid
    | none =>
        simp only [_save_parents_into_ids_dict, if_pos htr, hch]
        refine pass1Inv_congr
          ⟨?_, ?_, h3, h4, h5, nodup_keysOf_aset _ _ _ h6⟩
          (fun c pid => Iff.rfl) hTiff
        · intro pid cs2 hcs2
          rw [alookup_aset] at hcs2
          by_cases hpid : pid = parentId r.parent_station
          · rw [if_pos hpid] at hcs2
            cases hcs2
            refine ⟨List.nodup_singleton _, fun c => ?_⟩
            rw [List.mem_singleton]
            constructor
            · intro hc
              exact Or.inr ⟨hc.symm, htr, hpid.symm⟩
            · rintro (hc | ⟨hid, _, _⟩)
              · exact absurd (by rw [hpid] at hc; exact hc)
                  (h2 _ hch c)
              · exact hid.symm
          · rw [if_neg hpid] at hcs2
            obtain ⟨hnd, hiff⟩ := h1 pid cs2 hcs2
            refine ⟨hnd, fun c => ⟨fun hc => Or.inl ((hiff c).mp hc), ?_⟩⟩
            rintro (hc | ⟨_, _, hpid2⟩)
            · exact (hiff c).mpr hc
            · exact absurd hpid2.symm hpid
        · intro pid hn c hc
          rw [alookup_aset] at hn
          by_cases hpid : pid = parentId r.parent_station
          · rw [if_pos hpid] at hn
            exact Option.noConfusion hn
          · rw [if_neg hpid] at hn
            rcases hc with hc | ⟨_, _, hpid2⟩
            · exact h2 pid hn c hc
            · exact absurd hpid2.symm hpid
  · -- parent record: children untouched, all_ids set
    have hfr : pyTruthy r.parent_station = false := by
      revert htr
      cases pyTruthy r.parent_station <;> simp
    have hDiff : ∀ c pid, D c pid ↔
        (D c pid ∨ (r.stop_id = c ∧ pyTruthy r.parent_station = true ∧
          parentId r.parent_station = pid)) := by
      intro c pid
      constructor
      · exact Or.inl
      · rintro (hc | ⟨_, hc, _⟩)
        · exact hc
        · rw [hfr] at hc
          exact absurd hc (by simp)
    simp only [_save_parents_into_ids_dict, if_neg htr]
    refine pass1Inv_congr
      ⟨h1, h2, ?_, ?_, nodup_keysOf_aset _ _ _ h5, h6⟩ hDiff (fun p => Iff.rfl)
    · intro p
      rw [mem_keysOf_aset]
      constructor
      · rintro (hp | hp)
        · exact Or.inl ((h3 p).mp hp)
        · exact Or.inr ⟨hp.symm, hfr⟩
      · rintro (hp | ⟨hp, _⟩)
        · exact Or.inl ((h3 p).mpr hp)
        · exact Or.inr hp.symm
    · intro p info hinfo
      rw [alookup_aset] at hinfo
      by_cases hp : p = r.stop_id
      · rw [if_pos hp] at hinfo
        cases hinfo
        rfl
      · rw [if_neg hp] at hinfo
        exact h4 p info hinfo

theorem pass1_fold (stations : List RawStation) :
    ∀ (D : String → String → Prop) (T : String → Prop)
      (ai : List (String × StationInfo)) (ch : List (String × List String)),
      Pass1Inv D T ai ch →
      Pass1Inv (fun c pid => D c pid ∨ declaredUnder stations c pid)
        (fun p => T p ∨ isTopId stations p)
        ((stations.foldl (fun acc st =>
            _save_parents_into_ids_dict acc.1 acc.2 st.parent_station st.stop_id
              (st.stop_lat, st.stop_lon) st.stop_name) (ai, ch)).1)
        ((stations.foldl (fun acc st =>
            _save_parents_into_ids_dict acc.1 acc.2 st.parent_station st.stop_id
              (st.stop_lat, st.stop_lon) st.stop_name) (ai, ch)).2) := by
  induction stations with
  | nil =>
      intro D T ai ch h
      apply pass1Inv_congr h
      · intro c pid
        simp [declaredUnder]
      · intro p
        simp [isTopId]
  | cons r rest ih =>
      intro D T ai ch h
      have h2 := ih _ _
        (_save_parents_into_ids_dict ai ch r.parent_station r.stop_id
          (r.stop_lat, r.stop_lon) r.stop_name).1
        (_save_parents_into_ids_dict ai ch r.parent_station r.stop_id
          (r.stop_lat, r.stop_lon) r.stop_name).2
        (pass1_step D T ai ch h r)
      apply pass1Inv_congr h2
      · intro c pid
        simp only [declaredUnder, List.mem_cons]
        constructor
        · rintro ((hc | ⟨hid, ht2, hp2⟩) | ⟨r2, hr2, hprop⟩)
          · exact Or.inl hc
          · exact Or.inr ⟨r, Or.inl rfl, hid, ht2, hp2⟩
          · exact Or.inr ⟨r2, Or.inr hr2, hprop⟩
        · rintro (hc | ⟨r2, (hr2 | hr2), hprop⟩)
          · exact Or.inl (Or.inl hc)
          · rw [← hr2]
            exact Or.inl (Or.inr hprop)
          · exact Or.inr ⟨r2, hr2, hprop⟩
      · intro p
        simp only [isTopId, List.mem_cons]
        constructor
        · rintro ((hp | ⟨hid, hf⟩) | ⟨r2, hr2, hprop⟩)
          · exact Or.inl hp
          · exact Or.inr ⟨r, Or.inl rfl, hid, hf⟩
          · exact Or.inr ⟨r2, Or.inr hr2, hprop⟩
        · rintro (hp | ⟨r2, (hr2 | hr2), hprop⟩)
          · exact Or.inl (Or.inl hp)
          · rw [← hr2]
            exact Or.inl (Or.inr hprop)
          · exact Or.inr ⟨r2, hr2, hprop⟩

theorem pass1_char (stations : List RawStation) :
    Pass1Inv (declaredUnder stations) (isTopId stations)
      (pass1 stations).1 (pass1 stations).2 := by
  have hbase : Pass1Inv (fun _ _ => False) (fun _ => False) [] [] := by
    refine ⟨?_, ?_, ?_, ?_, ?_, ?_⟩
    · intro pid cs hcs
      exact Option.noConfusion hcs
    · intro pid _ c hc
      exact hc
    · intro p
      simp [keysOf]
    · intro p info hinfo
      exact Option.noConfusion hinfo
    · simp [keysOf]
    · simp [keysOf]
  have h := pass1_fold stations _ _ [] [] hbase
  apply pass1Inv_congr h
  · intro c pid
    simp
  · intro p
    simp


theorem aset_append_of_not_mem {β : Type} (d : List (String × β)) (k : String)
    (v : β) (hk : k ∉ keysOf d) : aset d k v = d ++ [(k, v)] := by
  induction d with
  | nil => rfl
  | cons e t ih =>
      rw [keysOf_cons, List.mem_cons, not_or] at hk
      have h1 : ¬ e.1 = k := fun hc => hk.1 hc.symm
      rw [aset]
      rw [if_neg h1, ih hk.2, List.cons_append]

theorem writeAll_lookup (cs : List String) :
    ∀ (cp : List (String × String)) (pid x : String),
      alookup (cs.foldl (fun m c => aset m c pid) cp) x
        = if x ∈ cs then some pid else alookup cp x := by
  induction cs with
  | nil =>
      intro cp pid x
      simp
  | cons c rest ih =>
      intro cp pid x
      rw [List.foldl_cons, ih]
      by_cases hx : x ∈ rest
      · rw [if_pos hx, if_pos (List.mem_cons_of_mem _ hx)]
      · rw [if_neg hx, alookup_aset]
        by_cases hxc : x = c
        · rw [if_pos hxc, if_pos (by rw [hxc]; exact List.mem_cons_self _ _)]
        · rw [if_neg hxc, if_neg (by
            intro hm
            rcases List.mem_cons.mp hm with h | h
            · exact hxc h
            · exact hx h)]

/-- The loop body of the first loop of `_save_children_into_ids_dict`. -/
def flStep
    (acc : List (String × StationInfo) × List (String × List String)
      × List (String × String)) (e : String × List String) :
    List (String × StationInfo) × List (String × List String)
      × List (String × String) :=
  match alookup acc.1 e.1 with
  | some info =>
      (aset acc.1 e.1 ⟨info.name, info.location, e.2⟩,
       acc.2.1,
       e.2.foldl (fun m c => aset m c e.1) acc.2.2)
  | none => (acc.1, aset acc.2.1 e.1 e.2, acc.2.2)

theorem pass2FirstLoop_eq (all_ids : List (String × StationInfo))
    (children : List (String × List String)) :
    pass2FirstLoop all_ids children = children.foldl flStep (all_ids, [], []) := rfl

theorem firstLoop_char :
    ∀ (ch : List (String × List String)) (ai : List (String × StationInfo))
      (coc : List (String × List String)) (cp : List (String × String)),
      (keysOf ch).Nodup →
      (∀ k ∈ keysOf ch, k ∉ keysOf coc) →
      keysOf ((ch.foldl flStep (ai, coc, cp)).1) = keysOf ai ∧
      (∀ p cs, alookup ch p = some cs →
        alookup ((ch.foldl flStep (ai, coc, cp)).1) p
          = (alookup ai p).map (fun info => ⟨info.name, info.location, cs⟩)) ∧
      (∀ p, alookup ch p = none →
        alookup ((ch.foldl flStep (ai, coc, cp)).1) p = alookup ai p) ∧
      (ch.foldl flStep (ai, coc, cp)).2.1
          = coc ++ ch.filter (fun e => decide (¬ e.1 ∈ keysOf ai)) ∧
      (∀ c, (∀ e ∈ ch, e.1 ∈ keysOf ai → c ∉ e.2) →
        alookup ((ch.foldl flStep (ai, coc, cp)).2.2) c = alookup cp c) ∧
      (∀ c p, alookup ((ch.foldl flStep (ai, coc, cp)).2.2) c = some p →
        alookup cp c = some p ∨ ∃ e ∈ ch, e.1 = p ∧ p ∈ keysOf ai ∧ c ∈ e.2) := by
  intro ch
  induction ch with
  | nil =>
      intro ai coc cp _ _
      refine ⟨rfl, ?_, ?_, by simp, ?_, ?_⟩
      · intro p cs hcs
        exact Option.noConfusion hcs
      · intro p _
        rfl
      · intro c _
        rfl
      · intro c p h
        exact Or.inl h
  | cons e t ih =>
      rcases e with ⟨e1, e2⟩
      intro ai coc cp hnd hpre
      rw [keysOf_cons, List.nodup_cons] at hnd
      rw [List.foldl_cons]
      cases hlook : alookup ai e1 with
      | some info =>
          have hmemAi : e1 ∈ keysOf ai := by
            rw [← alookup_isSome_iff, hlook]
            rfl
          have hstep : flStep (ai, coc, cp) (e1, e2)
              = (aset ai e1 ⟨info.name, info.location, e2⟩, coc,
                 e2.foldl (fun m c => aset m c e1) cp) := by
            rw [flStep]
            show (match alookup ai e1 with
              | some info =>
                  (aset ai e1 ⟨info.name, info.location, e2⟩, coc,
                   e2.foldl (fun m c => aset m c e1) cp)
              | none => (ai, aset coc e1 e2, cp)) = _
            rw [hlook]
          rw [hstep]
          have hkeq : keysOf (aset ai e1 ⟨info.name, info.location, e2⟩)
              = keysOf ai := by
            rw [keysOf_aset, if_pos hmemAi]
          obtain ⟨k1, k2a, k2b, k3, k4, k5⟩ := ih
            (aset ai e1 ⟨info.name, info.location, e2⟩) coc
            (e2.foldl (fun m c => aset m c e1) cp) hnd.2
            (fun k hk => hpre k (List.mem_cons_of_mem _ hk))
          refine ⟨by rw [k1, hkeq], ?_, ?_, ?_, ?_, ?_⟩
          · intro p cs hcs
            by_cases hp : p = e1
            · rw [hp] at hcs ⊢
              rw [alookup] at hcs
              simp only [if_pos rfl] at hcs
              cases hcs
              have hte : alookup t e1 = none := by
                rw [alookup_eq_none_iff]
                exact hnd.1
              rw [k2b e1 hte, alookup_aset, if_pos rfl, hlook]
              rfl
            · rw [alookup] at hcs
              simp only [if_neg hp] at hcs
              rw [k2a p cs hcs, alookup_aset, if_neg hp]
          · intro p hnone
            rw [alookup] at hnone
            by_cases hp : p = e1
            · rw [if_pos hp] at hnone
              exact Option.noConfusion hnone
            · rw [if_neg hp] at hnone
              rw [k2b p hnone, alookup_aset, if_neg hp]
          · rw [k3, hkeq]
            have hfe : (decide (¬ e1 ∈ keysOf ai)) = false := by
              simp [hmemAi]
            rw [List.filter_cons]
            simp only [hfe]
            rfl
          · intro c hc
            rw [k4 c (fun e3 he3 hm => hc e3 (List.mem_cons_of_mem _ he3)
              (by rw [hkeq] at hm; exact hm)),
              writeAll_lookup]
            rw [if_neg (hc (e1, e2) (List.mem_cons_self _ _) hmemAi)]
          · intro c p hsome
            rcases k5 c p hsome with hl | ⟨e3, he3, h3a, h3b, h3c⟩
            · rw [writeAll_lookup] at hl
              by_cases hce : c ∈ e2
              · rw [if_pos hce] at hl
                cases hl
                exact Or.inr ⟨(e1, e2), List.mem_cons_self _ _, rfl, hmemAi, hce⟩
              · rw [if_neg hce] at hl
                exact Or.inl hl
            · rw [hkeq] at h3b
              exact Or.inr ⟨e3, List.mem_cons_of_mem _ he3, h3a, h3b, h3c⟩
      | none =>
          have hmemAi : e1 ∉ keysOf ai := by
            rw [← alookup_eq_none_iff]
            exact hlook
          have hstep : flStep (ai, coc, cp) (e1, e2)
              = (ai, aset coc e1 e2, cp) := by
            rw [flStep]
            show (match alookup ai e1 with
              | some info =>
                  (aset ai e1 ⟨info.name, info.location, e2⟩, coc,
                   e2.foldl (fun m c => aset m c e1) cp)
              | none => (ai, aset coc e1 e2, cp)) = _
            rw [hlook]
          rw [hstep]
          have hcocapp : aset coc e1 e2 = coc ++ [(e1, e2)] :=
            aset_append_of_not_mem coc e1 e2
              (hpre e1 (List.mem_cons_self _ _))
          obtain ⟨k1, k2a, k2b, k3, k4, k5⟩ := ih ai (aset coc e1 e2) cp hnd.2
            (by
              intro k hk
              rw [hcocapp, keysOf]
              rw [List.map_append, List.mem_append]
              rintro (hm | hm)
              · exact hpre k (List.mem_cons_of_mem _ hk) hm
              · simp at hm
                rw [hm] at hk
                exact hnd.1 hk)
          refine ⟨k1, ?_, ?_, ?_,
            (fun c hc => k4 c
              (fun e3 he3 hm => hc e3 (List.mem_cons_of_mem _ he3) hm)), ?_⟩
          · intro p cs hcs
            by_cases hp : p = e1
            · rw [hp] at hcs ⊢
              rw [alookup] at hcs
              simp only [if_pos rfl] at hcs
              cases hcs
              have hte : alookup t e1 = none := by
                rw [alookup_eq_none_iff]
                exact hnd.1
              rw [k2b e1 hte, hlook]
              rfl
            · rw [alookup] at hcs
              simp only [if_neg hp] at hcs
              exact k2a p cs hcs
          · intro p hnone
            rw [alookup] at hnone
            by_cases hp : p = e1
            · rw [if_pos hp] at hnone
              exact Option.noConfusion hnone
            · rw [if_neg hp] at hnone
              exact k2b p hnone
          · rw [k3, hcocapp]
            have hfe : (decide (¬ e1 ∈ keysOf ai)) = true := by
              simp [hmemAi]
            rw [List.filter_cons]
            simp only [hfe]
            rw [List.append_assoc]
            rfl
          · intro c p hsome
            rcases k5 c p hsome with hl | ⟨e3, he3, h3a, h3b, h3c⟩
            · exact Or.inl hl
            · exact Or.inr ⟨e3, List.mem_cons_of_mem _ he3, h3a, h3b, h3c⟩

theorem mem_firstDedup (x : String) : ∀ (l : List String), x ∈ firstDedup l ↔ x ∈ l := by
  intro l
  induction l with
  | nil => simp [firstDedup]
  | cons a t ih =>
      rw [firstDedup]
      constructor
      · intro h
        rcases List.mem_cons.mp h with h | h
        · rw [h]
          exact List.mem_cons_self _ _
        · rw [List.mem_filter] at h
          exact List.mem_cons_of_mem _ (ih.mp h.1)
      · intro h
        rcases List.mem_cons.mp h with h | h
        · rw [h]
          exact List.mem_cons_self _ _
        · by_cases hxa : x = a
          · rw [hxa]
            exact List.mem_cons_self _ _
          · refine List.mem_cons_of_mem _ ?_
            rw [List.mem_filter]
            exact ⟨ih.mpr h, by simp [hxa]⟩

theorem nodup_firstDedup : ∀ (l : List String), (firstDedup l).Nodup := by
  intro l
  induction l with
  | nil => simp [firstDedup]
  | cons a t ih =>
      rw [firstDedup, List.nodup_cons]
      constructor
      · intro hc
        rw [List.mem_filter] at hc
        have := hc.2
        simp at this
      · exact ih.filter _

/-- The loop body of the second loop of `_save_children_into_ids_dict`. -/
def slStep (cp : List (String × String))
    (acc : Option (List (String × StationInfo))) (e : String × List String) :
    Option (List (String × StationInfo)) :=
  acc.bind (fun ai2 =>
    match alookup cp e.1 with
    | none => none
    | some top =>
        match alookup ai2 top with
        | none => none
        | some info =>
            some (aset ai2 top ⟨info.name, info.location,
              info.children
                ++ (firstDedup e.2).filter
                    (fun c => decide (¬ c ∈ info.children))⟩))

theorem pass2SecondLoop_eq (cp : List (String × String))
    (coc : List (String × List String)) (ai : List (String × StationInfo)) :
    pass2SecondLoop cp coc ai = coc.foldl (slStep cp) (some ai) := rfl

theorem slFold_none (cp : List (String × String)) :
    ∀ (coc : List (String × List String)), coc.foldl (slStep cp) none = none := by
  intro coc
  induction coc with
  | nil => rfl
  | cons e t ih =>
      rw [List.foldl_cons]
      rw [show slStep cp none e = none from rfl]
      exact ih

theorem secondLoop_success (cp : List (String × String)) :
    ∀ (coc : List (String × List String)) (ai h : List (String × StationInfo)),
      coc.foldl (slStep cp) (some ai) = some h →
      ∀ e ∈ coc, (alookup cp e.1).isSome = true := by
  intro coc
  induction coc with
  | nil =>
      intro ai h _ e he
      simp at he
  | cons e0 t ih =>
      intro ai h hfold e he
      rw [List.foldl_cons] at hfold
      cases hc : alookup cp e0.1 with
      | none =>
          have hz : slStep cp (some ai) e0 = none := by
            simp only [slStep, Option.some_bind, hc]
          rw [hz, slFold_none] at hfold
          exact Option.noConfusion hfold
      | some top =>
          cases hai : alookup ai top with
          | none =>
              have hz : slStep cp (some ai) e0 = none := by
                simp only [slStep, Option.some_bind, hc, hai]
              rw [hz, slFold_none] at hfold
              exact Option.noConfusion hfold
          | some info =>
              have hz : slStep cp (some ai) e0
                  = some (aset ai top ⟨info.name, info.location,
                      info.children
                        ++ (firstDedup e0.2).filter
                            (fun c => decide (¬ c ∈ info.children))⟩) := by
                simp only [slStep, Option.some_bind, hc, hai]
              rw [hz] at hfold
              rcases List.mem_cons.mp he with he | he
              · rw [he, hc]
                rfl
              · exact ih _ h hfold e he

theorem secondLoop_abort (cp : List (String × String))
    (coc : List (String × List String)) (ai : List (String × StationInfo))
    (e : String × List String) (he : e ∈ coc) (hn : alookup cp e.1 = none) :
    coc.foldl (slStep cp) (some ai) = none := by
  cases hres : coc.foldl (slStep cp) (some ai) with
  | none => rfl
  | some h =>
      have hs := secondLoop_success cp coc ai h hres e he
      rw [hn] at hs
      simp at hs

theorem nodup_append_of_disjoint {α : Type} {l1 l2 : List α} (h1 : l1.Nodup)
    (h2 : l2.Nodup) (hd : ∀ a, a ∈ l1 → a ∈ l2 → False) : (l1 ++ l2).Nodup := by
  rw [List.nodup_append]
  exact ⟨h1, h2, fun a ha1 ha2 => hd a ha1 ha2⟩

theorem secondLoop_char (cp : List (String × String)) :
    ∀ (coc : List (String × List String)) (ai h : List (String × StationInfo)),
      coc.foldl (slStep cp) (some ai) = some h →
      keysOf h = keysOf ai ∧
      (∀ p info2, alookup h p = some info2 →
        ∃ info1, alookup ai p = some info1 ∧
          info2.name = info1.name ∧ info2.location = info1.location ∧
          (info1.children.Nodup → info2.children.Nodup) ∧
          (∀ c, c ∈ info2.children ↔ c ∈ info1.children ∨
            ∃ e ∈ coc, alookup cp e.1 = some p ∧ c ∈ e.2)) := by
  intro coc
  induction coc with
  | nil =>
      intro ai h hfold
      rw [List.foldl_nil, Option.some.injEq] at hfold
      rw [← hfold]
      refine ⟨rfl, ?_⟩
      intro p info2 hp
      refine ⟨info2, hp, rfl, rfl, fun hh => hh, fun c => ?_⟩
      simp
  | cons e0 t ih =>
      intro ai h hfold
      rw [List.foldl_cons] at hfold
      cases hc : alookup cp e0.1 with
      | none =>
          have hz : slStep cp (some ai) e0 = none := by
            simp only [slStep, Option.some_bind, hc]
          rw [hz, slFold_none] at hfold
          exact Option.noConfusion hfold
      | some top =>
          cases hai : alookup ai top with
          | none =>
              have hz : slStep cp (some ai) e0 = none := by
                simp only [slStep, Option.some_bind, hc, hai]
              rw [hz, slFold_none] at hfold
              exact Option.noConfusion hfold
          | some info =>
              have hadd :
                  ∀ c, c ∈ (firstDedup e0.2).filter
                      (fun c => decide (¬ c ∈ info.children))
                    ↔ (c ∈ e0.2 ∧ c ∉ info.children) := by
                intro c
                rw [List.mem_filter, mem_firstDedup]
                simp
              have hz : slStep cp (some ai) e0
                  = some (aset ai top ⟨info.name, info.location,
                      info.children
                        ++ (firstDedup e0.2).filter
                            (fun c => decide (¬ c ∈ info.children))⟩) := by
                simp only [slStep, Option.some_bind, hc, hai]
              rw [hz] at hfold
              have htop : top ∈ keysOf ai := by
                rw [← alookup_isSome_iff, hai]
                rfl
              obtain ⟨ik, ival⟩ := ih _ h hfold
              have hkeq : keysOf (aset ai top ⟨info.name, info.location,
                  info.children ++ (firstDedup e0.2).filter
                    (fun c => decide (¬ c ∈ info.children))⟩) = keysOf ai := by
                rw [keysOf_aset, if_pos htop]
              refine ⟨by rw [ik, hkeq], ?_⟩
              intro p info2 hp
              obtain ⟨info1x, hlook1, hname, hloc, hnd, hiff⟩ := ival p info2 hp
              rw [alookup_aset] at hlook1
              by_cases hptop : p = top
              · rw [if_pos hptop] at hlook1
                cases hlook1
                refine ⟨info, by rw [hptop, hai], hname, hloc, ?_, ?_⟩
                · intro hndi
                  apply hnd
                  show (info.children ++ _).Nodup
                  refine nodup_append_of_disjoint hndi
                    ((nodup_firstDedup e0.2).filter _) ?_
                  intro a ha1 ha2
                  exact ((hadd a).mp ha2).2 ha1
                · intro c
                  rw [hiff c]
                  show c ∈ info.children ++ _ ∨ _ ↔ _
                  rw [List.mem_append, hadd c]
                  constructor
                  · rintro ((hm | hm) | ⟨e2, he2, hcp2, hc2⟩)
                    · exact Or.inl hm
                    · exact Or.inr ⟨e0, List.mem_cons_self _ _,
                        by rw [hc, hptop], hm.1⟩
                    · exact Or.inr ⟨e2, List.mem_cons_of_mem _ he2, hcp2, hc2⟩
                  · rintro (hm | ⟨e2, he2, hcp2, hc2⟩)
                    · exact Or.inl (Or.inl hm)
                    · rcases List.mem_cons.mp he2 with he2 | he2
                      · by_cases hmem : c ∈ info.children
                        · exact Or.inl (Or.inl hmem)
                        · rw [he2] at hc2
                          exact Or.inl (Or.inr ⟨hc2, hmem⟩)
                      · exact Or.inr ⟨e2, he2, hcp2, hc2⟩
              · rw [if_neg hptop] at hlook1
                refine ⟨info1x, hlook1, hname, hloc, hnd, ?_⟩
                intro c
                rw [hiff c]
                constructor
                · rintro (hm | ⟨e2, he2, hcp2, hc2⟩)
                  · exact Or.inl hm
                  · exact Or.inr ⟨e2, List.mem_cons_of_mem _ he2, hcp2, hc2⟩
                · rintro (hm | ⟨e2, he2, hcp2, hc2⟩)
                  · exact Or.inl hm
                  · rcases List.mem_cons.mp he2 with he2 | he2
                    · rw [he2, hc] at hcp2
                      cases hcp2
                      exact absurd rfl hptop
                    · exact Or.inr ⟨e2, he2, hcp2, hc2⟩

theorem filter_station_ids_enriched_eq (stations : List RawStation) :
    filter_station_ids_enriched stations
      = pass2SecondLoop
          (pass2FirstLoop (pass1 stations).1 (pass1 stations).2).2.2
          (pass2FirstLoop (pass1 stations).1 (pass1 stations).2).2.1
          (pass2FirstLoop (pass1 stations).1 (pass1 stations).2).1 := rfl

/-- C6: on an input containing a child record whose declared parent is
neither a top-level station nor itself declared a child of any top-level
station — so the parent chain can never resolve to a top-level parent —
hierarchy construction fails: the `child_parent[parent_station_id]` lookup
in the second loop of `_save_children_into_ids_dict` raises `KeyError`
(the spec's `ResolutionError`), surfacing to the caller instead of
silently dropping the child. -/
theorem c6_unresolvable_parent_fails (stations : List RawStation)
    (r0 : RawStation) (hr0 : r0 ∈ stations)
    (htr : pyTruthy r0.parent_station = true)
    (hnotTop : ¬ isTopId stations (parentId r0.parent_station))
    (hnc : ∀ r2 ∈ stations, pyTruthy r2.parent_station = false →
        ¬ declaredUnder stations (parentId r0.parent_station) r2.stop_id) :
    filter_station_ids_enriched stations = none := by
  obtain ⟨h1, h2, h3, h4, h5, h6⟩ := pass1_char stations
  have hdecl : declaredUnder stations r0.stop_id (parentId r0.parent_station) :=
    ⟨r0, hr0, rfl, htr, rfl⟩
  obtain ⟨cs, hcs⟩ : ∃ cs,
      alookup (pass1 stations).2 (parentId r0.parent_station) = some cs := by
    cases hx : alookup (pass1 stations).2 (parentId r0.parent_station) with
    | none => exact absurd hdecl (h2 _ hx r0.stop_id)
    | some cs => exact ⟨cs, rfl⟩
  have hXnotAi : parentId r0.parent_station ∉ keysOf (pass1 stations).1 :=
    fun hm => hnotTop ((h3 _).mp hm)
  obtain ⟨k1, k2a, k2b, k3, k4, k5⟩ :=
    firstLoop_char (pass1 stations).2 (pass1 stations).1 [] [] h6
      (by intro k _ hk; simp [keysOf] at hk)
  have hXmem : (parentId r0.parent_station, cs)
      ∈ ((pass1 stations).2.foldl flStep ((pass1 stations).1, [], [])).2.1 := by
    rw [k3, List.nil_append, List.mem_filter]
    refine ⟨mem_of_alookup _ _ _ hcs, by simp [hXnotAi]⟩
  have hcpX : alookup
      ((pass1 stations).2.foldl flStep ((pass1 stations).1, [], [])).2.2
      (parentId r0.parent_station) = none := by
    refine (k4 _ ?_).trans rfl
    rintro ⟨p, csp⟩ he hmem hXin
    have hlp : alookup (pass1 stations).2 p = some csp :=
      alookup_of_mem_nodup _ _ _ h6 he
    have hdp : declaredUnder stations (parentId r0.parent_station) p :=
      ((h1 p csp hlp).2 _).mp hXin
    obtain ⟨r2, hr2, hid, hfalse⟩ := (h3 p).mp hmem
    exact hnc r2 hr2 hfalse (by rw [hid]; exact hdp)
  rw [filter_station_ids_enriched_eq, pass2FirstLoop_eq, pass2SecondLoop_eq]
  exact secondLoop_abort _ _ _ (parentId r0.parent_station, cs) hXmem hcpX

theorem c6_unresolvable_parent_witness :
    filter_station_ids_enriched
      [{ parent_station := some "X", stop_id := "c", stop_lat := "0",
         stop_lon := "0", stop_name := "n" }] = none :=
  c6_unresolvable_parent_fails _
    { parent_station := some "X", stop_id := "c", stop_lat := "0",
      stop_lon := "0", stop_name := "n" }
    (List.mem_cons_self _ _) (by decide) (by decide) (by decide)

/-- C5 fails on the code: when the same child is declared under two
different parents, `_save_parents_into_ids_dict` keeps one children-dict
entry per declared parent and the reconciliation pass copies each list into
its parent, so the child ends up in the children lists of BOTH parents —
not of exactly one (and no first-seen tie-break exists).  Concretely,
stations PA and PB both declare child c, and the built hierarchy lists c
under PA and under PB. -/
theorem c5_two_parents_counterexample :
    (filter_station_ids_enriched
        [{ parent_station := none, stop_id := "PA", stop_lat := "0",
           stop_lon := "0", stop_name := "A" },
         { parent_station := none, stop_id := "PB", stop_lat := "0",
           stop_lon := "0", stop_name := "B" },
         { parent_station := some "PA", stop_id := "c", stop_lat := "0",
           stop_lon := "0", stop_name := "C" },
         { parent_station := some "PB", stop_id := "c", stop_lat := "0",
           stop_lon := "0", stop_name := "C" }]).map
      (fun h => ((alookup h "PA").map StationInfo.children,
                 (alookup h "PB").map StationInfo.children))
      = some (some ["c"], some ["c"]) := by decide

/-- C5 (amended): whenever hierarchy construction succeeds, every children
list of the result is free of duplicate identifiers; and — provided no
child identifier is declared under two distinct parents (the amendment the
two-parent counterexample forces; repeated records under the same parent
are still deduplicated) — every declared child identifier occurs in the
children list of exactly one parent of the result. -/
theorem c5_hierarchy_children_amended (stations : List RawStation)
    (h : List (String × StationInfo))
    (hsucc : filter_station_ids_enriched stations = some h) :
    (∀ p info, alookup h p = some info → info.children.Nodup) ∧
    ((∀ c p1 p2, declaredUnder stations c p1 → declaredUnder stations c p2 →
        p1 = p2) →
      ∀ c pid0, declaredUnder stations c pid0 →
        ∃! p, ∃ info, alookup h p = some info ∧ c ∈ info.children) := by
  obtain ⟨h1, h2, h3, h4, h5, h6⟩ := pass1_char stations
  obtain ⟨k1, k2a, k2b, k3, k4, k5⟩ :=
    firstLoop_char (pass1 stations).2 (pass1 stations).1 [] [] h6
      (by intro k _ hk; simp [keysOf] at hk)
  rw [filter_station_ids_enriched_eq, pass2FirstLoop_eq,
    pass2SecondLoop_eq] at hsucc
  obtain ⟨ik, ival⟩ := secondLoop_char _ _ _ h hsucc
  constructor
  · intro p info2 hp
    obtain ⟨info1, hlook1, _, _, hnd12, _⟩ := ival p info2 hp
    apply hnd12
    cases hch : alookup (pass1 stations).2 p with
    | some cs =>
        cases halo : alookup (pass1 stations).1 p with
        | none =>
            have hz : alookup
                ((pass1 stations).2.foldl flStep ((pass1 stations).1, [], [])).1 p
                = none := by
              rw [k2a p cs hch, halo]
              rfl
            rw [hz] at hlook1
            exact Option.noConfusion hlook1
        | some info0 =>
            have hz : alookup
                ((pass1 stations).2.foldl flStep ((pass1 stations).1, [], [])).1 p
                = some ⟨info0.name, info0.location, cs⟩ := by
              rw [k2a p cs hch, halo]
              rfl
            rw [hz] at hlook1
            injection hlook1 with hinfo
            rw [← hinfo]
            exact (h1 p cs hch).1
    | none =>
        rw [k2b p hch] at hlook1
        rw [h4 p info1 hlook1]
        exact List.nodup_nil
  · intro huniq c pid0 hdecl0
    obtain ⟨cs0, hch0⟩ : ∃ cs0, alookup (pass1 stations).2 pid0 = some cs0 := by
      cases hx : alookup (pass1 stations).2 pid0 with
      | none => exact absurd hdecl0 (h2 _ hx c)
      | some cs0 => exact ⟨cs0, rfl⟩
    have hc0 : c ∈ cs0 := ((h1 pid0 cs0 hch0).2 c).mpr hdecl0
    have hqchar : ∀ q infoq, alookup h q = some infoq → c ∈ infoq.children →
        (q = pid0 ∧ pid0 ∈ keysOf (pass1 stations).1) ∨
        (pid0 ∉ keysOf (pass1 stations).1 ∧
          alookup ((pass1 stations).2.foldl flStep
            ((pass1 stations).1, [], [])).2.2 pid0 = some q) := by
      intro q infoq hq hcq
      obtain ⟨info1, hlook1, _, _, _, hiff⟩ := ival q infoq hq
      rcases (hiff c).mp hcq with hl | ⟨e, he, hcp, hce⟩
      · cases hch : alookup (pass1 stations).2 q with
        | some csq =>
            cases halo : alookup (pass1 stations).1 q with
            | none =>
                have hz : alookup ((pass1 stations).2.foldl flStep
                    ((pass1 stations).1, [], [])).1 q = none := by
                  rw [k2a q csq hch, halo]
                  rfl
                rw [hz] at hlook1
                exact Option.noConfusion hlook1
            | some info0 =>
                have hz : alookup ((pass1 stations).2.foldl flStep
                    ((pass1 stations).1, [], [])).1 q
                    = some ⟨info0.name, info0.location, csq⟩ := by
                  rw [k2a q csq hch, halo]
                  rfl
                rw [hz] at hlook1
                injection hlook1 with hinfo
                have hlc : c ∈ csq := by
                  rw [← hinfo] at hl
                  exact hl
                have hdq : declaredUnder stations c q :=
                  ((h1 q csq hch).2 c).mp hlc
                have hqp : q = pid0 := huniq c q pid0 hdq hdecl0
                left
                refine ⟨hqp, ?_⟩
                rw [← hqp]
                rw [← alookup_isSome_iff, halo]
                rfl
        | none =>
            rw [k2b q hch] at hlook1
            rw [h4 q info1 hlook1] at hl
            exact absurd hl (List.not_mem_nil c)
      · rcases e with ⟨u, csu⟩
        have hecoc := he
        rw [k3, List.nil_append, List.mem_filter] at hecoc
        obtain ⟨heCH, hdec⟩ := hecoc
        have hunot : u ∉ keysOf (pass1 stations).1 := by
          simpa using hdec
        have hlu : alookup (pass1 stations).2 u = some csu :=
          alookup_of_mem_nodup _ _ _ h6 heCH
        have hdu : declaredUnder stations c u := ((h1 u csu hlu).2 c).mp hce
        have hup : u = pid0 := huniq c u pid0 hdu hdecl0
        right
        constructor
        · rw [← hup]
          exact hunot
        · rw [← hup]
          exact hcp
    by_cases htop : pid0 ∈ keysOf (pass1 stations).1
    · obtain ⟨info0, halo⟩ := Option.isSome_iff_exists.mp
        ((alookup_isSome_iff _ pid0).mpr htop)
      have hai1 : alookup ((pass1 stations).2.foldl flStep
          ((pass1 stations).1, [], [])).1 pid0
          = some ⟨info0.name, info0.location, cs0⟩ := by
        rw [k2a pid0 cs0 hch0, halo]
        rfl
      have hkh : pid0 ∈ keysOf h := by
        rw [ik, k1]
        exact htop
      obtain ⟨info2, hh2⟩ := Option.isSome_iff_exists.mp
        ((alookup_isSome_iff h pid0).mpr hkh)
      obtain ⟨info1, hlook1, _, _, _, hiff⟩ := ival pid0 info2 hh2
      rw [hai1] at hlook1
      injection hlook1 with hinfo
      have hc1 : c ∈ info1.children := by
        rw [← hinfo]
        exact hc0
      refine ⟨pid0, ⟨info2, hh2, (hiff c).mpr (Or.inl hc1)⟩, ?_⟩
      rintro q ⟨infoq, hq, hcq⟩
      rcases hqchar q infoq hq hcq with ⟨hqp, _⟩ | ⟨hnot, _⟩
      · exact hqp
      · exact absurd htop hnot
    · have hcoc : (pid0, cs0) ∈ ((pass1 stations).2.foldl flStep
          ((pass1 stations).1, [], [])).2.1 := by
        rw [k3, List.nil_append, List.mem_filter]
        exact ⟨mem_of_alookup _ _ _ hch0, by simp [htop]⟩
      have hs := secondLoop_success _ _ _ h hsucc (pid0, cs0) hcoc
      obtain ⟨P, hP0⟩ := Option.isSome_iff_exists.mp hs
      have hP : alookup ((pass1 stations).2.foldl flStep
          ((pass1 stations).1, [], [])).2.2 pid0 = some P := hP0
      rcases k5 pid0 P hP with hl | ⟨e3, he3, h3a, h3b, h3c⟩
      · rw [show alookup ([] : List (String × String)) pid0 = none from rfl] at hl
        exact Option.noConfusion hl
      · have hkh : P ∈ keysOf h := by
          rw [ik, k1]
          exact h3b
        obtain ⟨info2, hh2⟩ := Option.isSome_iff_exists.mp
          ((alookup_isSome_iff h P).mpr hkh)
        obtain ⟨info1, hlook1, _, _, _, hiff⟩ := ival P info2 hh2
        have hcmem : c ∈ info2.children :=
          (hiff c).mpr (Or.inr ⟨(pid0, cs0), hcoc, hP, hc0⟩)
        refine ⟨P, ⟨info2, hh2, hcmem⟩, ?_⟩
        rintro q ⟨infoq, hq, hcq⟩
        rcases hqchar q infoq hq hcq with ⟨_, htop2⟩ | ⟨_, hcpq⟩
        · exact absurd htop2 htop
        · rw [hP] at hcpq
          injection hcpq with he
          exact he.symm

theorem c5_hierarchy_children_witness :
    (∀ p info,
      alookup [("P", (⟨"N", ("0", "0"), ["c"]⟩ : StationInfo))] p = some info →
      info.children.Nodup) ∧
    ((∀ c p1 p2,
        declaredUnder
          [{ parent_station := none, stop_id := "P", stop_lat := "0",
             stop_lon := "0", stop_name := "N" },
           { parent_station := some "P", stop_id := "c", stop_lat := "0",
             stop_lon := "0", stop_name := "M" }] c p1 →
        declaredUnder
          [{ parent_station := none, stop_id := "P", stop_lat := "0",
             stop_lon := "0", stop_name := "N" },
           { parent_station := some "P", stop_id := "c", stop_lat := "0",
             stop_lon := "0", stop_name := "M" }] c p2 → p1 = p2) →
      ∀ c pid0,
        declaredUnder
          [{ parent_station := none, stop_id := "P", stop_lat := "0",
             stop_lon := "0", stop_name := "N" },
           { parent_station := some "P", stop_id := "c", stop_lat := "0",
             stop_lon := "0", stop_name := "M" }] c pid0 →
        ∃! p, ∃ info,
          alookup [("P", (⟨"N", ("0", "0"), ["c"]⟩ : StationInfo))] p
            = some info ∧ c ∈ info.children) :=
  c5_hierarchy_children_amended
    [{ parent_station := none, stop_id := "P", stop_lat := "0",
       stop_lon := "0", stop_name := "N" },
     { parent_station := some "P", stop_id := "c", stop_lat := "0",
       stop_lon := "0", stop_name := "M" }]
    [("P", ⟨"N", ("0", "0"), ["c"]⟩)] (by decide)

/-! ### Aggregation (src/app/downloader.py, lines 288-337) -/

/-- `_get_child_parent_dict` (lines 292-303): `{child1: parent1, ...}`,
later assignments overwriting earlier ones. -/
def _get_child_parent_dict (all_ids : List (String × StationInfo)) :
    List (String × String) :=
  all_ids.foldl (fun cp e => e.2.children.foldl (fun m c => aset m c e.1) cp) []

/-- Line 315: `station = child_parent[station] if station not in all_ids
else station`; an identifier known neither way raises `KeyError` (the
spec's `ConsistencyError`), modelled as `none`. -/
def resolveStation (all_ids : List (String × StationInfo))
    (child_parent : List (String × String)) (s : String) : Option String :=
  if s ∈ keysOf all_ids then some s else alookup child_parent s

/-- The loop body of `_aggregate_stop_count_per_file` (lines 314-319). -/
def aggStep (all_ids : List (String × StationInfo))
    (child_parent : List (String × String)) (acc : Option (List (String × Nat)))
    (e : String × Nat) : Option (List (String × Nat)) :=
  acc.bind (fun m =>
    match resolveStation all_ids child_parent e.1 with
    | none => none
    | some station =>
        match alookup m station with
        | some c0 => some (aset m station (c0 + e.2))
        | none => some (aset m station e.2))

/-- `_aggregate_stop_count_per_file` (lines 305-320). -/
def _aggregate_stop_count_per_file (stops : List (String × Nat))
    (all_ids : List (String × StationInfo)) (all_stops : List (String × Nat)) :
    Option (List (String × Nat)) :=
  stops.foldl (aggStep all_ids (_get_child_parent_dict all_ids)) (some all_stops)

/-- `aggregate_stop_count` (lines 322-337) without the file I/O: fold
`_aggregate_stop_count_per_file` over the per-batch CountRecords for the
date, starting from the empty dict; an exception in any file aborts the
whole run. -/
def aggregate_stop_count (files : List (List (String × Nat)))
    (all_ids : List (String × StationInfo)) : Option (List (String × Nat)) :=
  files.foldl (fun acc stops =>
    acc.bind (fun m => _aggregate_stop_count_per_file stops all_ids m)) (some [])

theorem aggFold_none (all_ids : List (String × StationInfo))
    (cp : List (String × String)) :
    ∀ (stops : List (String × Nat)),
      stops.foldl (aggStep all_ids cp) none = none := by
  intro stops
  induction stops with
  | nil => rfl
  | cons e t ih =>
      rw [List.foldl_cons]
      rw [show aggStep all_ids cp none e = none from rfl]
      exact ih

/-- C4: a CountRecord containing an identifier that is neither a parent
key of the hierarchy nor a key of the child-to-parent lookup makes
`_aggregate_stop_count_per_file` raise (`KeyError`, the spec's
`ConsistencyError`) instead of skipping the identifier; when every
identifier is known the aggregation completes without error. -/
theorem c4_aggregation_consistency_error (stops : List (String × Nat))
    (all_ids : List (String × StationInfo)) (m : List (String × Nat)) :
    ((∃ e ∈ stops, e.1 ∉ keysOf all_ids ∧
        alookup (_get_child_parent_dict all_ids) e.1 = none) →
      _aggregate_stop_count_per_file stops all_ids m = none) ∧
    ((∀ e ∈ stops, e.1 ∈ keysOf all_ids ∨
        (alookup (_get_child_parent_dict all_ids) e.1).isSome) →
      (_aggregate_stop_count_per_file stops all_ids m).isSome) := by
  constructor
  · rw [_aggregate_stop_count_per_file]
    induction stops generalizing m with
    | nil =>
        rintro ⟨e, he, _⟩
        simp at he
    | cons e0 t ih =>
        rintro ⟨e, he, hnot, hnone⟩
        rw [List.foldl_cons]
        cases hres : resolveStation all_ids (_get_child_parent_dict all_ids) e0.1 with
        | none =>
            rw [show aggStep all_ids (_get_child_parent_dict all_ids) (some m) e0
                = none from by
              simp only [aggStep, Option.some_bind, hres]]
            exact aggFold_none _ _ t
        | some station =>
            have hstep : ∃ m2, aggStep all_ids (_get_child_parent_dict all_ids)
                (some m) e0 = some m2 := by
              cases hx : alookup m station with
              | some c0 =>
                  exact ⟨aset m station (c0 + e0.2), by
                    simp only [aggStep, Option.some_bind, hres, hx]⟩
              | none =>
                  exact ⟨aset m station e0.2, by
                    simp only [aggStep, Option.some_bind, hres, hx]⟩
            obtain ⟨m2, hm2⟩ := hstep
            rw [hm2]
            rcases List.mem_cons.mp he with he | he
            · rw [← he] at hres
              rw [resolveStation, if_neg hnot, hnone] at hres
              exact Option.noConfusion hres
            · exact ih m2 ⟨e, he, hnot, hnone⟩
  · rw [_aggregate_stop_count_per_file]
    induction stops generalizing m with
    | nil =>
        intro _
        rfl
    | cons e0 t ih =>
        intro hall
        rw [List.foldl_cons]
        have hres : (resolveStation all_ids (_get_child_parent_dict all_ids)
            e0.1).isSome := by
          rcases hall e0 (List.mem_cons_self _ _) with hm | hm
          · rw [resolveStation, if_pos hm]
            rfl
          · rw [resolveStation]
            by_cases hmem : e0.1 ∈ keysOf all_ids
            · rw [if_pos hmem]
              rfl
            · rw [if_neg hmem]
              exact hm
        obtain ⟨station, hst⟩ := Option.isSome_iff_exists.mp hres
        have hstep : ∃ m2, aggStep all_ids (_get_child_parent_dict all_ids)
            (some m) e0 = some m2 := by
          cases hx : alookup m station with
          | some c0 =>
              exact ⟨aset m station (c0 + e0.2), by
                simp only [aggStep, Option.some_bind, hst, hx]⟩
          | none =>
              exact ⟨aset m station e0.2, by
                simp only [aggStep, Option.some_bind, hst, hx]⟩
        obtain ⟨m2, hm2⟩ := hstep
        rw [hm2]
        exact ih m2 (fun e he => hall e (List.mem_cons_of_mem _ he))

theorem c4_aggregation_consistency_witness :
    (_aggregate_stop_count_per_file [("ghost", 7)]
        [("P1", ⟨"n", ("0", "0"), ["C1"]⟩)] [] = none) ∧
    ((_aggregate_stop_count_per_file [("C1", 5), ("P1", 2)]
        [("P1", ⟨"n", ("0", "0"), ["C1"]⟩)] []).isSome = true) :=
  ⟨(c4_aggregation_consistency_error [("ghost", 7)]
      [("P1", ⟨"n", ("0", "0"), ["C1"]⟩)] []).1 (by decide),
   (c4_aggregation_consistency_error [("C1", 5), ("P1", 2)]
      [("P1", ⟨"n", ("0", "0"), ["C1"]⟩)] []).2 (by decide)⟩

theorem cpd_lookup_not_mem :
    ∀ (l : List (String × StationInfo)) (cp0 : List (String × String)) (s : String),
      (∀ e ∈ l, s ∉ e.2.children) →
      alookup (l.foldl (fun cp e =>
        e.2.children.foldl (fun m c => aset m c e.1) cp) cp0) s = alookup cp0 s := by
  intro l
  induction l with
  | nil => intro cp0 s _; rfl
  | cons e t ih =>
      intro cp0 s hs
      rw [List.foldl_cons,
        ih _ s (fun e2 he2 => hs e2 (List.mem_cons_of_mem _ he2)),
        writeAll_lookup, if_neg (hs e (List.mem_cons_self _ _))]

theorem cpd_lookup_some_src :
    ∀ (l : List (String × StationInfo)) (cp0 : List (String × String))
      (s p : String),
      alookup (l.foldl (fun cp e =>
        e.2.children.foldl (fun m c => aset m c e.1) cp) cp0) s = some p →
      alookup cp0 s = some p ∨ ∃ info, (p, info) ∈ l ∧ s ∈ info.children := by
  intro l
  induction l with
  | nil =>
      intro cp0 s p h
      exact Or.inl h
  | cons e t ih =>
      rcases e with ⟨e1, e2⟩
      intro cp0 s p h
      rw [List.foldl_cons] at h
      rcases ih _ s p h with hl | ⟨info, hm, hc⟩
      · rw [writeAll_lookup] at hl
        by_cases hce : s ∈ e2.children
        · rw [if_pos hce] at hl
          injection hl with hp
          right
          refine ⟨e2, ?_, hce⟩
          rw [← hp]
          exact List.mem_cons_self _ _
        · rw [if_neg hce] at hl
          exact Or.inl hl
      · exact Or.inr ⟨info, List.mem_cons_of_mem _ hm, hc⟩

theorem cpd_lookup_complete :
    ∀ (l : List (String × StationInfo)) (cp0 : List (String × String))
      (p : String) (info : StationInfo) (s : String),
      (p, info) ∈ l → s ∈ info.children →
      ((l.map (fun e => e.2.children)).flatten).Nodup →
      alookup (l.foldl (fun cp e =>
        e.2.children.foldl (fun m c => aset m c e.1) cp) cp0) s = some p := by
  intro l
  induction l with
  | nil =>
      intro cp0 p info s hm _ _
      simp at hm
  | cons e t ih =>
      rcases e with ⟨e1, e2⟩
      intro cp0 p info s hm hs hnd
      rw [List.map_cons, List.flatten_cons] at hnd
      obtain ⟨nd1, nd2, disj⟩ := List.nodup_append.mp hnd
      rcases List.mem_cons.mp hm with hm | hm
      · injection hm with h1 h2
        rw [List.foldl_cons]
        have hse2 : s ∈ e2.children := by rw [← h2]; exact hs
        have hnot : ∀ e3 ∈ t, s ∉ e3.2.children := by
          intro e3 he3 hc
          exact disj hse2 (List.mem_flatten.mpr
            ⟨e3.2.children, List.mem_map_of_mem _ he3, hc⟩)
        rw [cpd_lookup_not_mem t _ s hnot, writeAll_lookup, if_pos hse2, h1]
      · rw [List.foldl_cons]
        exact ih _ p info s hm hs nd2

theorem getD0_aset (m : List (String × Nat)) (y : String) (v : Nat) (x : String) :
    getD0 (aset m y v) x = if x = y then v else getD0 m x := by
  rw [getD0, alookup_aset]
  by_cases hx : x = y
  · rw [if_pos hx, if_pos hx]
    rfl
  · rw [if_neg hx, if_neg hx]
    rfl

theorem getD0_cons (s : String) (v : Nat) (t : List (String × Nat)) (x : String) :
    getD0 ((s, v) :: t) x = if x = s then v else getD0 t x := by
  rw [getD0, alookup]
  by_cases hx : x = s
  · rw [if_pos hx, if_pos hx]
    rfl
  · rw [if_neg hx, if_neg hx]
    rfl

theorem aggStep_some (all_ids : List (String × StationInfo))
    (cp : List (String × String)) (m : List (String × Nat)) (e : String × Nat)
    (y : String) (hres : resolveStation all_ids cp e.1 = some y) :
    aggStep all_ids cp (some m) e = some (aset m y (getD0 m y + e.2)) := by
  cases hx : alookup m y with
  | some c0 =>
      have hg : getD0 m y = c0 := by rw [getD0, hx]; rfl
      rw [hg]
      simp only [aggStep, Option.some_bind, hres, hx]
  | none =>
      have hg : getD0 m y = 0 := by rw [getD0, hx]; rfl
      rw [hg, Nat.zero_add]
      simp only [aggStep, Option.some_bind, hres, hx]

theorem aggPerFile_acc (all_ids : List (String × StationInfo))
    (cp : List (String × String)) :
    ∀ (stops : List (String × Nat)) (m : List (String × Nat)),
      (∀ e ∈ stops, (resolveStation all_ids cp e.1).isSome) →
      ∃ m2, stops.foldl (aggStep all_ids cp) (some m) = some m2 ∧
        ∀ x, getD0 m2 x = getD0 m x +
          (stops.map (fun e =>
            if resolveStation all_ids cp e.1 = some x then e.2 else 0)).sum := by
  intro stops
  induction stops with
  | nil =>
      intro m _
      exact ⟨m, rfl, fun x => by simp⟩
  | cons e t ih =>
      intro m hall
      obtain ⟨y, hy⟩ := Option.isSome_iff_exists.mp
        (hall e (List.mem_cons_self _ _))
      rw [List.foldl_cons, aggStep_some all_ids cp m e y hy]
      obtain ⟨m2, hm2, hval⟩ := ih (aset m y (getD0 m y + e.2))
        (fun e2 he2 => hall e2 (List.mem_cons_of_mem _ he2))
      refine ⟨m2, hm2, fun x => ?_⟩
      rw [hval x, getD0_aset, List.map_cons, List.sum_cons]
      by_cases hx : x = y
      · rw [if_pos hx]
        have hcond : resolveStation all_ids cp e.1 = some x := by
          rw [hy, hx]
        rw [if_pos hcond, hx]
        omega
      · rw [if_neg hx]
        have hcond : ¬ resolveStation all_ids cp e.1 = some x := by
          rw [hy]
          intro hc
          injection hc with hc2
          exact hx hc2.symm
        rw [if_neg hcond]
        omega

theorem sum_map_eq_zero {α : Type} (l : List α) (f : α → Nat)
    (h : ∀ a ∈ l, f a = 0) : (l.map f).sum = 0 := by
  induction l with
  | nil => rfl
  | cons a t ih =>
      rw [List.map_cons, List.sum_cons, h a (List.mem_cons_self _ _),
        ih (fun b hb => h b (List.mem_cons_of_mem _ hb))]

theorem sum_map_ite (cs : List String) (s : String) (v : Nat) (g : String → Nat)
    (hnd : cs.Nodup) (hgs : g s = 0) :
    (cs.map (fun c => if c = s then v else g c)).sum
      = (if s ∈ cs then v else 0) + (cs.map g).sum := by
  induction cs with
  | nil => simp
  | cons c t ih =>
      rw [List.nodup_cons] at hnd
      rw [List.map_cons, List.sum_cons, List.map_cons, List.sum_cons]
      by_cases hcs : c = s
      · rw [if_pos hcs]
        have hsn : s ∉ t := by rw [← hcs]; exact hnd.1
        have hmapeq : t.map (fun c2 => if c2 = s then v else g c2) = t.map g :=
          List.map_congr_left (fun c2 hc2 => by
            rw [if_neg (by intro hc; rw [hc] at hc2; exact hsn hc2)])
        rw [hmapeq, if_pos (List.mem_cons.mpr (Or.inl hcs.symm))]
        have hgc : g c = 0 := by rw [hcs]; exact hgs
        omega
      · rw [if_neg hcs, ih hnd.2]
        by_cases hst : s ∈ t
        · rw [if_pos hst, if_pos (List.mem_cons_of_mem _ hst)]
          omega
        · have hsnc : s ∉ c :: t := by
            intro hc
            rcases List.mem_cons.mp hc with hc | hc
            · exact hcs hc.symm
            · exact hst hc
          rw [if_neg hst, if_neg hsnc]
          omega

theorem per_file_sum (all_ids : List (String × StationInfo))
    (cp : List (String × String)) (p : String) (cs : List String)
    (hres : ∀ s, resolveStation all_ids cp s = some p ↔ (s = p ∨ s ∈ cs))
    (hcnd : cs.Nodup) (hpc : p ∉ cs) :
    ∀ (f : List (String × Nat)), (keysOf f).Nodup →
      (f.map (fun e =>
        if resolveStation all_ids cp e.1 = some p then e.2 else 0)).sum
        = getD0 f p + (cs.map (getD0 f)).sum := by
  intro f
  induction f with
  | nil =>
      intro _
      rw [List.map_nil, List.sum_nil,
        show getD0 ([] : List (String × Nat)) p = 0 from rfl,
        sum_map_eq_zero cs (getD0 []) (fun c _ => rfl)]
      rfl
  | cons e t ih =>
      rcases e with ⟨s, v⟩
      intro hnd
      rw [keysOf_cons, List.nodup_cons] at hnd
      have hgs : getD0 t s = 0 := by
        rw [getD0, (alookup_eq_none_iff t s).mpr hnd.1]
        rfl
      have hmap : cs.map (getD0 ((s, v) :: t))
          = cs.map (fun c => if c = s then v else getD0 t c) :=
        List.map_congr_left (fun c _ => getD0_cons s v t c)
      simp only [List.map_cons, List.sum_cons]
      rw [ih hnd.2, hmap, sum_map_ite cs s v (getD0 t) hcnd hgs, getD0_cons]
      by_cases hsp : s = p
      · have hc1 : resolveStation all_ids cp s = some p :=
          (hres s).mpr (Or.inl hsp)
        have hsc : s ∉ cs := by rw [hsp]; exact hpc
        rw [if_pos hc1, if_pos hsp.symm, if_neg hsc]
        have hz : getD0 t p = 0 := by rw [← hsp]; exact hgs
        omega
      · by_cases hscs : s ∈ cs
        · have hc1 : resolveStation all_ids cp s = some p :=
            (hres s).mpr (Or.inr hscs)
          rw [if_pos hc1, if_neg (fun h => hsp h.symm), if_pos hscs]
          omega
        · have hc1 : ¬ resolveStation all_ids cp s = some p := by
            intro h
            rcases (hres s).mp h with h2 | h2
            · exact hsp h2
            · exact hscs h2
          rw [if_neg hc1, if_neg (fun h => hsp h.symm), if_neg hscs]
          omega

theorem cpd_eq (all_ids : List (String × StationInfo)) :
    _get_child_parent_dict all_ids
      = all_ids.foldl (fun cp e =>
          e.2.children.foldl (fun m c => aset m c e.1) cp) [] := rfl

theorem resolve_iff (all_ids : List (String × StationInfo))
    (hK : (keysOf all_ids).Nodup)
    (hCN : ((all_ids.map (fun e => e.2.children)).flatten).Nodup)
    (hCP : ∀ e ∈ all_ids, ∀ c ∈ e.2.children, c ∉ keysOf all_ids)
    (p : String) (info : StationInfo) (hp : alookup all_ids p = some info) :
    ∀ s, resolveStation all_ids (_get_child_parent_dict all_ids) s = some p
      ↔ (s = p ∨ s ∈ info.children) := by
  intro s
  simp only [resolveStation]
  rw [cpd_eq]
  constructor
  · intro hres2
    by_cases hm : s ∈ keysOf all_ids
    · rw [if_pos hm] at hres2
      injection hres2 with h
      exact Or.inl h
    · rw [if_neg hm] at hres2
      rcases cpd_lookup_some_src all_ids [] s p hres2 with hl | ⟨info2, hmem, hc⟩
      · rw [show alookup ([] : List (String × String)) s = none from rfl] at hl
        exact Option.noConfusion hl
      · have h2 : alookup all_ids p = some info2 :=
          alookup_of_mem_nodup all_ids p info2 hK hmem
        rw [hp] at h2
        injection h2 with h3
        right
        rw [h3]
        exact hc
  · intro hor
    rcases hor with hs | hs
    · have hmem : s ∈ keysOf all_ids := by
        rw [hs, mem_keysOf_iff]
        exact ⟨info, mem_of_alookup all_ids p info hp⟩
      rw [if_pos hmem, hs]
    · have hnm : s ∉ keysOf all_ids :=
        hCP (p, info) (mem_of_alookup all_ids p info hp) s hs
      rw [if_neg hnm]
      exact cpd_lookup_complete all_ids [] p info s
        (mem_of_alookup all_ids p info hp) hs hCN

theorem aggPerFile_eq (stops : List (String × Nat))
    (all_ids : List (String × StationInfo)) (m : List (String × Nat)) :
    _aggregate_stop_count_per_file stops all_ids m
      = stops.foldl (aggStep all_ids (_get_child_parent_dict all_ids))
          (some m) := rfl

theorem aggregate_stop_count_eq (files : List (List (String × Nat)))
    (all_ids : List (String × StationInfo)) :
    aggregate_stop_count files all_ids
      = files.foldl (fun acc stops =>
          acc.bind (fun m => _aggregate_stop_count_per_file stops all_ids m))
          (some []) := rfl

theorem aggregate_files_acc (all_ids : List (String × StationInfo)) :
    ∀ (files : List (List (String × Nat))) (m : List (String × Nat)),
      (∀ f ∈ files, ∀ e ∈ f,
        (resolveStation all_ids (_get_child_parent_dict all_ids) e.1).isSome) →
      ∃ M, files.foldl (fun acc stops =>
          acc.bind (fun m2 => _aggregate_stop_count_per_file stops all_ids m2))
          (some m) = some M ∧
        ∀ x, getD0 M x = getD0 m x + (files.map (fun f =>
          (f.map (fun e =>
            if resolveStation all_ids (_get_child_parent_dict all_ids) e.1
                = some x
            then e.2 else 0)).sum)).sum := by
  intro files
  induction files with
  | nil =>
      intro m _
      exact ⟨m, rfl, fun x => by simp⟩
  | cons f fs ih =>
      intro m hall
      obtain ⟨m2, hm2, hv2⟩ :=
        aggPerFile_acc all_ids (_get_child_parent_dict all_ids) f m
          (hall f (List.mem_cons_self _ _))
      simp only [List.foldl_cons, Option.some_bind]
      rw [aggPerFile_eq, hm2]
      obtain ⟨M, hM, hvM⟩ := ih m2 (fun f2 hf2 => hall f2 (List.mem_cons_of_mem _ hf2))
      refine ⟨M, hM, fun x => ?_⟩
      rw [hvM x, hv2 x]
      simp only [List.map_cons, List.sum_cons]
      omega

/-- C3: for every well-formed hierarchy (no duplicate parent keys, no
identifier declared as a child twice, no child that is also a parent key)
and every collection of per-batch CountRecords with duplicate-free,
pairwise-disjoint identifier sets all known to the hierarchy, aggregation
succeeds and assigns each parent the sum over all files of the parent's
own recorded count plus the recorded counts of all its children. -/
theorem c3_aggregate_parent_totals (all_ids : List (String × StationInfo))
    (files : List (List (String × Nat)))
    (hK : (keysOf all_ids).Nodup)
    (hCN : ((all_ids.map (fun e => e.2.children)).flatten).Nodup)
    (hCP : ∀ e ∈ all_ids, ∀ c ∈ e.2.children, c ∉ keysOf all_ids)
    (hknown : ∀ f ∈ files, ∀ e ∈ f,
        (resolveStation all_ids (_get_child_parent_dict all_ids) e.1).isSome)
    (hfk : ∀ f ∈ files, (keysOf f).Nodup)
    (hdisj : List.Pairwise (fun f g => ∀ x ∈ keysOf f, x ∉ keysOf g) files) :
    ∃ M, aggregate_stop_count files all_ids = some M ∧
      ∀ p info, alookup all_ids p = some info →
        getD0 M p = (files.map (fun f =>
          getD0 f p + (info.children.map (getD0 f)).sum)).sum := by
  obtain ⟨M, hM, hv⟩ := aggregate_files_acc all_ids files [] hknown
  refine ⟨M, by rw [aggregate_stop_count_eq]; exact hM, ?_⟩
  intro p info hp
  rw [hv p, show getD0 ([] : List (String × Nat)) p = 0 from rfl, Nat.zero_add]
  have hmem : (p, info) ∈ all_ids := mem_of_alookup all_ids p info hp
  have hres := resolve_iff all_ids hK hCN hCP p info hp
  have hcnd : info.children.Nodup :=
    (List.nodup_flatten.mp hCN).1 info.children (List.mem_map_of_mem _ hmem)
  have hpc : p ∉ info.children := fun hc =>
    hCP (p, info) hmem p hc ((mem_keysOf_iff all_ids p).mpr ⟨info, hmem⟩)
  exact congrArg List.sum (List.map_congr_left (fun f hf =>
    per_file_sum all_ids (_get_child_parent_dict all_ids) p info.children
      hres hcnd hpc f (hfk f hf)))

/-- Witness for C3: the spec's scenario, hierarchy `{P1: children [C1, C2]}`
with counts C1 = 5, C2 = 3, P1 = 2 aggregates to P1 = 10. -/
theorem c3_aggregate_parent_totals_witness :
    ∃ M, aggregate_stop_count [[("C1", 5), ("C2", 3), ("P1", 2)]]
        [("P1", ⟨"n", ("0", "0"), ["C1", "C2"]⟩)] = some M ∧
      getD0 M "P1" = 10 := by
  obtain ⟨M, hM, hv⟩ := c3_aggregate_parent_totals
    [("P1", ⟨"n", ("0", "0"), ["C1", "C2"]⟩)]
    [[("C1", 5), ("C2", 3), ("P1", 2)]]
    (by decide) (by decide) (by decide) (by decide) (by decide) (by decide)
  refine ⟨M, hM, ?_⟩
  rw [hv "P1" ⟨"n", ("0", "0"), ["C1", "C2"]⟩ (by decide)]
  decide

/-! ### Incremental assignment (src/app/downloader.py, lines 339-375) -/

/-- A value of `final-stations_with_count.json`: a parent's name,
location, and per-date count dict (line 354). -/
structure FinalInfo where
  name : String
  location : String × String
  count : List (String × Nat)
deriving DecidableEq, Repr

/-- The loop body of `_assign_stop_count` (lines 351-357).  With
`initial=True` the entry is created from the hierarchy entry (name and
location copied, `children` dropped) with `count = {date: total}`; with
`initial=False` line 357 reads `parent_stations_with_count[station]`,
raising `KeyError` (modelled `none`) when the key is absent, and updates
`['count'][date]` in place.  `all_stops.get(station, 0)` defaults to 0. -/
def assignStep (all_stops : List (String × Nat)) (date : String)
    (initial : Bool) (acc : Option (List (String × FinalInfo)))
    (e : String × StationInfo) : Option (List (String × FinalInfo)) :=
  acc.bind (fun pswc =>
    if initial then
      some (aset pswc e.1
        ⟨e.2.name, e.2.location, [(date, getD0 all_stops e.1)]⟩)
    else
      match alookup pswc e.1 with
      | none => none
      | some fi =>
          some (aset pswc e.1
            ⟨fi.name, fi.location,
              aset fi.count date (getD0 all_stops e.1)⟩))

/-- `_assign_stop_count` (lines 339-358). -/
def _assign_stop_count (all_ids : List (String × StationInfo))
    (all_stops : List (String × Nat)) (pswc : List (String × FinalInfo))
    (date : String) (initial : Bool) : Option (List (String × FinalInfo)) :=
  all_ids.foldl (assignStep all_stops date initial) (some pswc)

theorem assign_eq (all_ids : List (String × StationInfo))
    (all_stops : List (String × Nat)) (pswc : List (String × FinalInfo))
    (date : String) (initial : Bool) :
    _assign_stop_count all_ids all_stops pswc date initial
      = all_ids.foldl (assignStep all_stops date initial) (some pswc) := rfl

theorem assignStep_true (all_stops : List (String × Nat)) (date : String)
    (pswc : List (String × FinalInfo)) (e : String × StationInfo) :
    assignStep all_stops date true (some pswc) e
      = some (aset pswc e.1
          ⟨e.2.name, e.2.location, [(date, getD0 all_stops e.1)]⟩) := rfl

theorem assignStep_false (all_stops : List (String × Nat)) (date : String)
    (pswc : List (String × FinalInfo)) (e : String × StationInfo) :
    assignStep all_stops date false (some pswc) e
      = match alookup pswc e.1 with
        | none => none
        | some fi =>
            some (aset pswc e.1
              ⟨fi.name, fi.location,
                aset fi.count date (getD0 all_stops e.1)⟩) := rfl

theorem assignFold_none (all_stops : List (String × Nat)) (date : String)
    (initial : Bool) :
    ∀ (l : List (String × StationInfo)),
      l.foldl (assignStep all_stops date initial) none = none := by
  intro l
  induction l with
  | nil => rfl
  | cons e t ih =>
      rw [List.foldl_cons,
        show assignStep all_stops date initial none e = none from rfl]
      exact ih

theorem aset_aset_same {β : Type} :
    ∀ (m : List (String × β)) (k : String) (v w : β),
      aset (aset m k v) k w = aset m k w := by
  intro m
  induction m with
  | nil =>
      intro k v w
      simp [aset]
  | cons e t ih =>
      intro k v w
      by_cases h : e.1 = k
      · simp [aset, h]
      · simp only [aset, if_neg h]
        rw [ih]

theorem alist_ext {β : Type} :
    ∀ (a b : List (String × β)), keysOf a = keysOf b → (keysOf a).Nodup →
      (∀ k, alookup a k = alookup b k) → a = b := by
  intro a
  induction a with
  | nil =>
      intro b hk _ _
      cases b with
      | nil => rfl
      | cons e t => simp at hk
  | cons e t ih =>
      intro b hk hnd hl
      cases b with
      | nil => simp at hk
      | cons e2 t2 =>
          rcases e with ⟨k1, v1⟩
          rcases e2 with ⟨k2, v2⟩
          simp only [keysOf_cons] at hk
          injection hk with h1 h2
          simp only [keysOf_cons, List.nodup_cons] at hnd
          have hv := hl k1
          simp only [alookup] at hv
          rw [if_pos True.intro, if_pos h1] at hv
          injection hv with hv2
          have htl : ∀ k, alookup t k = alookup t2 k := by
            intro k
            by_cases hke : k = k1
            · rw [hke, (alookup_eq_none_iff t k1).mpr hnd.1,
                (alookup_eq_none_iff t2 k1).mpr (by rw [← h2]; exact hnd.1)]
            · have hx := hl k
              simp only [alookup] at hx
              rw [if_neg hke, if_neg (by rw [← h1]; exact hke)] at hx
              exact hx
          rw [h1, hv2, ih t2 h2 hnd.2 htl]

theorem assignTrue_char (all_stops : List (String × Nat)) (date : String) :
    ∀ (l : List (String × StationInfo)) (pswc : List (String × FinalInfo)),
      (keysOf l).Nodup →
      ∃ r, l.foldl (assignStep all_stops date true) (some pswc) = some r ∧
        (∀ s, s ∉ keysOf l → alookup r s = alookup pswc s) ∧
        (∀ e ∈ l, alookup r e.1
          = some ⟨e.2.name, e.2.location, [(date, getD0 all_stops e.1)]⟩) := by
  intro l
  induction l with
  | nil =>
      intro pswc _
      exact ⟨pswc, rfl, fun s _ => rfl,
        fun e he => absurd he (List.not_mem_nil e)⟩
  | cons e t ih =>
      intro pswc hnd
      rw [keysOf_cons, List.nodup_cons] at hnd
      obtain ⟨r, hr, hpres, hent⟩ := ih
        (aset pswc e.1 ⟨e.2.name, e.2.location, [(date, getD0 all_stops e.1)]⟩)
        hnd.2
      refine ⟨r, ?_, ?_, ?_⟩
      · rw [List.foldl_cons, assignStep_true]
        exact hr
      · intro s hs
        have hs1 : ¬ s = e.1 := fun h => hs (by
          rw [keysOf_cons]
          exact List.mem_cons.mpr (Or.inl h))
        have hs2 : s ∉ keysOf t := fun h => hs (by
          rw [keysOf_cons]
          exact List.mem_cons.mpr (Or.inr h))
        rw [hpres s hs2, alookup_aset, if_neg hs1]
      · intro e2 he2
        rcases List.mem_cons.mp he2 with he2 | he2
        · rw [he2, hpres e.1 hnd.1, alookup_aset, if_pos rfl]
        · exact hent e2 he2

theorem assignFalse_char (all_stops : List (String × Nat)) (date : String) :
    ∀ (l : List (String × StationInfo)) (pswc : List (String × FinalInfo)),
      (keysOf l).Nodup →
      (∀ e ∈ l, e.1 ∈ keysOf pswc) →
      ∃ r, l.foldl (assignStep all_stops date false) (some pswc) = some r ∧
        keysOf r = keysOf pswc ∧
        (∀ s, s ∉ keysOf l → alookup r s = alookup pswc s) ∧
        (∀ e ∈ l, ∀ fi, alookup pswc e.1 = some fi →
          alookup r e.1 = some ⟨fi.name, fi.location,
            aset fi.count date (getD0 all_stops e.1)⟩) := by
  intro l
  induction l with
  | nil =>
      intro pswc _ _
      exact ⟨pswc, rfl, rfl, fun s _ => rfl,
        fun e he => absurd he (List.not_mem_nil e)⟩
  | cons e t ih =>
      intro pswc hnd hmem
      rw [keysOf_cons, List.nodup_cons] at hnd
      obtain ⟨fi0, hfi0⟩ := Option.isSome_iff_exists.mp
        ((alookup_isSome_iff pswc e.1).mpr (hmem e (List.mem_cons_self _ _)))
      set pswc1 := aset pswc e.1
        ⟨fi0.name, fi0.location, aset fi0.count date (getD0 all_stops e.1)⟩
        with hpswc1
      have hkeys1 : keysOf pswc1 = keysOf pswc := by
        rw [hpswc1, keysOf_aset, if_pos (hmem e (List.mem_cons_self _ _))]
      obtain ⟨r, hr, hk, hpres, hent⟩ := ih pswc1 hnd.2 (fun e2 he2 => by
        rw [hkeys1]
        exact hmem e2 (List.mem_cons_of_mem _ he2))
      refine ⟨r, ?_, ?_, ?_, ?_⟩
      · rw [List.foldl_cons, assignStep_false]
        simp only [hfi0]
        exact hr
      · rw [hk, hkeys1]
      · intro s hs
        have hs1 : ¬ s = e.1 := fun h => hs (by
          rw [keysOf_cons]
          exact List.mem_cons.mpr (Or.inl h))
        have hs2 : s ∉ keysOf t := fun h => hs (by
          rw [keysOf_cons]
          exact List.mem_cons.mpr (Or.inr h))
        rw [hpres s hs2, hpswc1, alookup_aset, if_neg hs1]
      · intro e2 he2 fi hfi
        rcases List.mem_cons.mp he2 with he2 | he2
        · rw [he2] at hfi ⊢
          rw [hfi0] at hfi
          injection hfi with hfieq
          rw [← hfieq]
          rw [hpres e.1 hnd.1, hpswc1, alookup_aset, if_pos rfl]
        · have hne : ¬ e2.1 = e.1 := by
            intro h
            exact hnd.1 (h ▸ List.mem_map_of_mem Prod.fst he2)
          have hlk : alookup pswc1 e2.1 = some fi := by
            rw [hpswc1, alookup_aset, if_neg hne]
            exact hfi
          exact hent e2 he2 fi hlk

theorem assignFalse_absent (all_stops : List (String × Nat)) (date : String) :
    ∀ (l : List (String × StationInfo)) (pswc : List (String × FinalInfo))
      (p : String), p ∈ keysOf l → p ∉ keysOf pswc →
      l.foldl (assignStep all_stops date false) (some pswc) = none := by
  intro l
  induction l with
  | nil =>
      intro pswc p hp _
      simp at hp
  | cons e t ih =>
      intro pswc p hp hnp
      rw [keysOf_cons] at hp
      rw [List.foldl_cons, assignStep_false]
      cases hfi : alookup pswc e.1 with
      | none =>
          simp only [hfi]
          exact assignFold_none all_stops date false t
      | some fi =>
          simp only [hfi]
          have hpe : ¬ p = e.1 := by
            intro h
            apply hnp
            rw [h, ← alookup_isSome_iff, hfi]
            rfl
          have hpt : p ∈ keysOf t := by
            rcases List.mem_cons.mp hp with h | h
            · exact absurd h hpe
            · exact h
          refine ih _ p hpt ?_
          rw [mem_keysOf_aset]
          rintro (h | h)
          · exact hnp h
          · exact hpe h

/-- C7: the `initial=False` merge of `_assign_stop_count` is idempotent —
running the same date-B totals a second time over the result reproduces it
exactly — and for any other date A every station's recorded `count[A]`
(and its absence) is preserved by the merge. -/
theorem c7_merge_idempotent_preserves_dates
    (all_ids : List (String × StationInfo)) (all_stops : List (String × Nat))
    (pswc : List (String × FinalInfo)) (dateA dateB : String)
    (r : List (String × FinalInfo))
    (hK : (keysOf all_ids).Nodup) (hP : (keysOf pswc).Nodup)
    (hrun : _assign_stop_count all_ids all_stops pswc dateB false = some r) :
    _assign_stop_count all_ids all_stops r dateB false = some r ∧
    (¬ dateA = dateB →
      ∀ s, (alookup r s).map (fun fi => alookup fi.count dateA)
        = (alookup pswc s).map (fun fi => alookup fi.count dateA)) := by
  have hpresence : ∀ e ∈ all_ids, e.1 ∈ keysOf pswc := by
    intro e he
    by_contra hne
    rw [assign_eq, assignFalse_absent all_stops dateB all_ids pswc e.1
      (List.mem_map_of_mem Prod.fst he) hne] at hrun
    exact Option.noConfusion hrun
  obtain ⟨r1, hr1, hk1, hpres1, hent1⟩ :=
    assignFalse_char all_stops dateB all_ids pswc hK hpresence
  have hr1r : r1 = r := by
    rw [assign_eq, hr1] at hrun
    injection hrun
  subst hr1r
  constructor
  · have hpresence2 : ∀ e ∈ all_ids, e.1 ∈ keysOf r1 := by
      intro e he
      rw [hk1]
      exact hpresence e he
    obtain ⟨r2, hr2, hk2, hpres2, hent2⟩ :=
      assignFalse_char all_stops dateB all_ids r1 hK hpresence2
    have hr2r1 : r2 = r1 := by
      apply alist_ext r2 r1 hk2 (by rw [hk2, hk1]; exact hP)
      intro k
      by_cases hkm : k ∈ keysOf all_ids
      · obtain ⟨info, hinfo⟩ := (mem_keysOf_iff all_ids k).mp hkm
        have hkp : k ∈ keysOf pswc := hpresence (k, info) hinfo
        obtain ⟨fi0, hfi0⟩ := Option.isSome_iff_exists.mp
          ((alookup_isSome_iff pswc k).mpr hkp)
        have h1 : alookup r1 k = some ⟨fi0.name, fi0.location,
            aset fi0.count dateB (getD0 all_stops k)⟩ :=
          hent1 (k, info) hinfo fi0 hfi0
        have h2 := hent2 (k, info) hinfo _ h1
        rw [h2, h1]
        simp only [aset_aset_same]
      · exact hpres2 k hkm
    rw [assign_eq, hr2, hr2r1]
  · intro hne s
    by_cases hsm : s ∈ keysOf all_ids
    · obtain ⟨info, hinfo⟩ := (mem_keysOf_iff all_ids s).mp hsm
      have hkp : s ∈ keysOf pswc := hpresence (s, info) hinfo
      obtain ⟨fi0, hfi0⟩ := Option.isSome_iff_exists.mp
        ((alookup_isSome_iff pswc s).mpr hkp)
      rw [hent1 (s, info) hinfo fi0 hfi0, hfi0]
      simp only [Option.map]
      rw [alookup_aset, if_neg hne]
    · rw [hpres1 s hsm]

/-- Witness for C7: merging date-B totals into a record holding date A and
re-running the same merge reproduces the record; the date-A value at `P1`
is untouched. -/
theorem c7_merge_idempotent_witness :
    _assign_stop_count [("P1", ⟨"n", ("0", "0"), []⟩)] [("P1", 9)]
        [("P1", ⟨"n", ("0", "0"), [("A", 4), ("B", 9)]⟩)] "B" false
      = some [("P1", ⟨"n", ("0", "0"), [("A", 4), ("B", 9)]⟩)] ∧
    (alookup ([("P1", ⟨"n", ("0", "0"), [("A", 4), ("B", 9)]⟩)]
          : List (String × FinalInfo)) "P1").map
        (fun fi => alookup fi.count "A")
      = (alookup ([("P1", ⟨"n", ("0", "0"), [("A", 4)]⟩)]
          : List (String × FinalInfo)) "P1").map
        (fun fi => alookup fi.count "A") := by
  obtain ⟨h1, h2⟩ := c7_merge_idempotent_preserves_dates
    [("P1", ⟨"n", ("0", "0"), []⟩)] [("P1", 9)]
    [("P1", ⟨"n", ("0", "0"), [("A", 4)]⟩)] "A" "B"
    [("P1", ⟨"n", ("0", "0"), [("A", 4), ("B", 9)]⟩)]
    (by decide) (by decide) (by decide)
  exact ⟨h1, h2 (by decide) "P1"⟩

/-- Counterexample to C8 as stated: with `initial=False` a parent that is
new since the prior record was written is not created — line 357 looks the
parent up in the prior record and raises `KeyError` (modelled `none`). -/
theorem c8_new_parent_counterexample :
    _assign_stop_count [("P1", ⟨"n", ("0", "0"), []⟩)] [] [] "2019-12-07"
      false = none := by decide

/-- C8 (amended): with `initial=True` every parent gets an entry created
from its hierarchy name and location with `count = {date: total}` (total
defaulting to 0 when absent from the totals map) and unrelated keys are
untouched; with `initial=False` the merge succeeds only when every parent
is already present — each present parent keeps its name and location and
has `count[date]` set to its total — and any parent absent from the prior
record makes the whole merge fail with `KeyError` instead of creating the
entry. -/
theorem c8_assign_merge_amended (all_ids : List (String × StationInfo))
    (all_stops : List (String × Nat)) (date : String)
    (hK : (keysOf all_ids).Nodup) :
    (∀ pswc, ∃ r, _assign_stop_count all_ids all_stops pswc date true
        = some r ∧
      (∀ s, s ∉ keysOf all_ids → alookup r s = alookup pswc s) ∧
      (∀ e ∈ all_ids, alookup r e.1
        = some ⟨e.2.name, e.2.location, [(date, getD0 all_stops e.1)]⟩)) ∧
    (∀ pswc, (∀ e ∈ all_ids, e.1 ∈ keysOf pswc) →
      ∃ r, _assign_stop_count all_ids all_stops pswc date false = some r ∧
        keysOf r = keysOf pswc ∧
        (∀ s, s ∉ keysOf all_ids → alookup r s = alookup pswc s) ∧
        (∀ e ∈ all_ids, ∀ fi, alookup pswc e.1 = some fi →
          alookup r e.1 = some ⟨fi.name, fi.location,
            aset fi.count date (getD0 all_stops e.1)⟩)) ∧
    (∀ pswc p, p ∈ keysOf all_ids → p ∉ keysOf pswc →
      _assign_stop_count all_ids all_stops pswc date false = none) := by
  refine ⟨fun pswc => ?_, fun pswc hmem => ?_, fun pswc p hp hnp => ?_⟩
  · obtain ⟨r, hr, h1, h2⟩ := assignTrue_char all_stops date all_ids pswc hK
    exact ⟨r, by rw [assign_eq]; exact hr, h1, h2⟩
  · obtain ⟨r, hr, h0, h1, h2⟩ :=
      assignFalse_char all_stops date all_ids pswc hK hmem
    exact ⟨r, by rw [assign_eq]; exact hr, h0, h1, h2⟩
  · rw [assign_eq]
    exact assignFalse_absent all_stops date all_ids pswc p hp hnp

/-- Witness for C8 (amended): with `initial=True` the parent entry is
created with name, location and `count = {date: 7}`; with `initial=False`
over an empty prior record the same merge fails. -/
theorem c8_assign_merge_witness :
    (∃ r, _assign_stop_count [("P1", ⟨"n", ("0", "0"), ["C1"]⟩)]
        [("P1", 7)] [] "2019-12-07" true = some r ∧
      alookup r "P1" = some ⟨"n", ("0", "0"), [("2019-12-07", 7)]⟩) ∧
    _assign_stop_count [("P1", ⟨"n", ("0", "0"), ["C1"]⟩)]
        [("P1", 7)] [] "2019-12-07" false = none := by
  obtain ⟨h1, h2, h3⟩ := c8_assign_merge_amended
    [("P1", ⟨"n", ("0", "0"), ["C1"]⟩)] [("P1", 7)] "2019-12-07" (by decide)
  constructor
  · obtain ⟨r, hr, hpres, hent⟩ := h1 []
    refine ⟨r, hr, ?_⟩
    have h := hent ("P1", ⟨"n", ("0", "0"), ["C1"]⟩) (by decide)
    exact h.trans (by decide)
  · exact h3 [] "P1" (by decide) (by decide)
